import Mathlib

/-!
# WTLS curves `y² = x³ + B` over a prime field: a shallow embedding of `wtls.go`

The Go package works on `math/big` integers.  They are modelled by `Int`; `Mod` and `Div`
of `math/big` are Euclidean, which is what `%` and `/` are on `Int`.  A function that can
abort with a run-time panic returns an `Option` (`none` is the panic); an unbounded loop is
modelled by a function that takes a fuel bound and returns `none` when the bound is used up.
The modulus `P` of a curve is taken to be non-zero throughout (`Mod` panics on a zero modulus);
every statement below is made for `P > 0`.
-/

namespace Wtls

/-! ## The `math/big` primitives the package calls -/

/-- Extended Euclid on `(r0, r1)`, carrying for each remainder the coefficient of `g` in it.
Returns the last non-zero remainder and its coefficient. -/
def xgcdLoop : Nat → Int → Int → Int → Int → Int × Int
  | 0, r0, s0, _, _ => (r0, s0)
  | fuel + 1, r0, s0, r1, s1 =>
    if r1 = 0 then (r0, s0) else xgcdLoop fuel r1 s1 (r0 % r1) (s0 - r0 / r1 * s1)

/-- `new(big.Int).ModInverse(g, n)`: the inverse of `g` in `ℤ/nℤ`, in `[0, |n|)`, when `g` and
`n` are relatively prime.  Otherwise `math/big` returns a nil pointer, which the caller in this
package dereferences at once: `none` stands for that failure (and for the panic at `n = 0`). -/
def ModInverse (g n : Int) : Option Int :=
  if n = 0 then none
  else
    let m : Int := n.natAbs
    let r := xgcdLoop (n.natAbs + 1) m 0 (g % m) 1
    if r.1 = 1 then some (r.2 % m) else none

/-- Square-and-multiply: `acc * b ^ e mod m`, one binary digit of `e` per pass. -/
def powModLoop (m : Int) : Nat → Int → Nat → Int → Int
  | 0, _, _, acc => acc
  | fuel + 1, b, e, acc =>
    if e = 0 then acc
    else powModLoop m fuel (b * b % m) (e / 2) (if e % 2 = 1 then acc * b % m else acc)

/-- `z.Exp(x, y, m)` of `math/big`: `x ^ y mod |m|`; with a nil (`none`) or zero modulus it is
`x ^ y`, and `1` when `y ≤ 0`.  The package only calls it with `y ≥ 0` when a modulus is given. -/
def Exp (x y : Int) (m : Option Int) : Int :=
  match m with
  | none => if y ≤ 0 then 1 else x ^ y.toNat
  | some m =>
    if m = 0 then (if y ≤ 0 then 1 else x ^ y.toNat)
    else powModLoop m y.toNat (x % m) y.toNat (1 % m)

/-- Loop of `x.Bytes()`: peel base-256 digits off `n`, most significant first in the result. -/
def bytesLoop : Nat → Nat → List Nat → List Nat
  | 0, _, acc => acc
  | fuel + 1, n, acc => if n = 0 then acc else bytesLoop fuel (n / 256) (n % 256 :: acc)

/-- `x.Bytes()`: the big-endian bytes of `|x|`, without leading zero bytes (empty for `0`). -/
def Bytes (x : Int) : List Nat :=
  bytesLoop x.natAbs x.natAbs []

/-- `new(big.Int).SetBytes(buf)`: the bytes read as a big-endian unsigned integer. -/
def SetBytes (buf : List Nat) : Int :=
  ((buf.foldl (fun acc b => acc * 256 + b % 256) 0 : Nat) : Int)

/-! ## Curve parameters -/

/-- The `Curve` struct. `BitSize` is a Go `int`. -/
structure Curve where
  P : Int
  N : Int
  B : Int
  Gx : Int
  Gy : Int
  BitSize : Int
deriving DecidableEq, Repr

/-- The body of `initP112`: the value stored in `p112`. -/
def curveP112 : Curve where
  P := 0xfffffffffffffffffffffffffde7
  N := 0x0100000000000001ecea551ad837e9
  B := 0x03
  Gx := 0x01
  Gy := 0x02
  BitSize := 112

/-- The body of `initP160`: the value stored in `p160`. -/
def curveP160 : Curve where
  P := 0xfffffffffffffffffffffffffffffffffffc808f
  N := 0x0100000000000000000001cdc98ae0e2de574abf33
  B := 0x03
  Gx := 0x01
  Gy := 0x02
  BitSize := 160

/-- The package-level variables: the `done` flag of `initonce` and the two curve pointers
(`none` is the nil pointer). -/
structure PkgState where
  initonce : Bool
  p112 : Option Curve
  p160 : Option Curve
deriving DecidableEq, Repr

/-- The state of the package when the program starts. -/
def PkgState.initial : PkgState where
  initonce := false
  p112 := none
  p160 := none

/-- `initP112`. -/
def initP112 (s : PkgState) : PkgState :=
  { s with p112 := some curveP112 }

/-- `initP160`. -/
def initP160 (s : PkgState) : PkgState :=
  { s with p160 := some curveP160 }

/-- `initonce.Do(f)`: runs `f` if and only if `Do` is called for the first time on this guard. -/
def onceDo (f : PkgState → PkgState) (s : PkgState) : PkgState :=
  if s.initonce then s else { f s with initonce := true }

/-- `P112()`: the returned pointer and the state after the call. -/
def P112 (s : PkgState) : Option Curve × PkgState :=
  let s1 := onceDo initP112 s
  (s1.p112, s1)

/-- `P160()`: the returned pointer and the state after the call. -/
def P160 (s : PkgState) : Option Curve × PkgState :=
  let s1 := onceDo initP160 s
  (s1.p160, s1)

/-- A call of one of the two accessors. -/
inductive Call
  | p112
  | p160
deriving DecidableEq, Repr

/-- Run one accessor call. -/
def Call.run : Call → PkgState → Option Curve × PkgState
  | .p112, s => P112 s
  | .p160, s => P160 s

/-- Run a sequence of accessor calls from a state; the list of returned pointers, in order. -/
def runCalls : List Call → PkgState → List (Option Curve)
  | [], _ => []
  | c :: cs, s => (c.run s).1 :: runCalls cs (c.run s).2

/-! ## Point arithmetic -/

/-- `Curve.IsOnCurve`. -/
def IsOnCurve (c : Curve) (x y : Int) : Bool :=
  let y2 := y * y % c.P
  let x3 := (x * x * x + c.B) % c.P
  decide (x3 = y2)

/-- `Curve.affineFromJacobian`; `none` when `ModInverse` returns nil and the next line
dereferences it. -/
def affineFromJacobian (c : Curve) (x y z : Int) : Option (Int × Int) :=
  match ModInverse z c.P with
  | none => none
  | some zinv =>
    let zinvsq := zinv * zinv
    let xOut := x * zinvsq % c.P
    let yOut := y * (zinvsq * zinv) % c.P
    some (xOut, yOut)

/-- `Curve.addJacobian`. -/
def addJacobian (c : Curve) (x1 y1 z1 x2 y2 z2 : Int) : Int × Int × Int :=
  let z1z1 := z1 * z1 % c.P
  let z2z2 := z2 * z2 % c.P
  let u1 := x1 * z2z2 % c.P
  let u2 := x2 * z1z1 % c.P
  let h0 := u2 - u1
  let h := if h0 < 0 then h0 + c.P else h0
  let i := (h * 2) * (h * 2)
  let j := h * i
  let s1 := y1 * z2 * z2z2 % c.P
  let s2 := y2 * z1 * z1z1 % c.P
  let r0 := s2 - s1
  let r1 := if r0 < 0 then r0 + c.P else r0
  let r := r1 * 2
  let v := u1 * i
  let x3 := (r * r - j - v - v) % c.P
  let y3 := (r * (v - x3) - s1 * j * 2) % c.P
  let z3a := (z1 + z2) * (z1 + z2) - z1z1
  let z3b := if z3a < 0 then z3a + c.P else z3a
  let z3c := z3b - z2z2
  let z3d := if z3c < 0 then z3c + c.P else z3c
  let z3 := z3d * h % c.P
  (x3, y3, z3)

/-- `Curve.doubleJacobian`. -/
def doubleJacobian (c : Curve) (x y z : Int) : Int × Int × Int :=
  let a := x * x
  let b := y * y
  let cc := b * b
  let d := ((x + b) * (x + b) - a - cc) * 2
  let e := 3 * a
  let f := e * e
  let x3 := (f - 2 * d) % c.P
  let y3 := (e * (d - x3) - 8 * cc) % c.P
  let z3 := 2 * (y * z) % c.P
  (x3, y3, z3)

/-- `Curve.Add`. -/
def Add (c : Curve) (x1 y1 x2 y2 : Int) : Option (Int × Int) :=
  let r := addJacobian c x1 y1 1 x2 y2 1
  affineFromJacobian c r.1 r.2.1 r.2.2

/-- `Curve.Double`. -/
def Double (c : Curve) (x1 y1 : Int) : Option (Int × Int) :=
  let r := doubleJacobian c x1 y1 1
  affineFromJacobian c r.1 r.2.1 r.2.2

/-- What `ScalarMult` hands back: `(nil, nil)` for the point at infinity, or two coordinates. -/
inductive Point
  | infinity
  | affine (x y : Int)
deriving DecidableEq, Repr

/-- The loop variables of `ScalarMult`. -/
structure Acc where
  x : Int
  y : Int
  z : Int
  seenFirstTrue : Bool
deriving DecidableEq, Repr

/-- One pass through the body of the inner loop of `ScalarMult`, for the byte value `b`
(the test is `byte&0x80 == 0x80`). -/
def scalarStep (c : Curve) (Bx By : Int) (s : Acc) (b : Nat) : Acc :=
  let d := if s.seenFirstTrue then doubleJacobian c s.x s.y s.z else (s.x, s.y, s.z)
  if Nat.land b 0x80 = 0x80 then
    if !s.seenFirstTrue then ⟨d.1, d.2.1, d.2.2, true⟩
    else
      let r := addJacobian c Bx By 1 d.1 d.2.1 d.2.2
      ⟨r.1, r.2.1, r.2.2, true⟩
  else ⟨d.1, d.2.1, d.2.2, s.seenFirstTrue⟩

/-- The inner loop of `ScalarMult`: `n` passes, the byte shifted left (`byte <<= 1`, 8 bits
wide) after each. -/
def scalarByte (c : Curve) (Bx By : Int) : Nat → Acc → Nat → Acc
  | 0, s, _ => s
  | n + 1, s, b => scalarByte c Bx By n (scalarStep c Bx By s b) (b * 2 % 256)

/-- The outer loop of `ScalarMult` over the bytes of `k`. -/
def scalarLoop (c : Curve) (Bx By : Int) : Acc → List Nat → Acc
  | s, [] => s
  | s, b :: k => scalarLoop c Bx By (scalarByte c Bx By 8 s (b % 256)) k

/-- `Curve.ScalarMult`; `none` is the run-time panic of `affineFromJacobian`. -/
def ScalarMult (c : Curve) (Bx By : Int) (k : List Nat) : Option Point :=
  let s := scalarLoop c Bx By ⟨Bx, By, 1, false⟩ k
  if !s.seenFirstTrue then some Point.infinity
  else
    match affineFromJacobian c s.x s.y s.z with
    | none => none
    | some r => some (Point.affine r.1 r.2)

/-- `Curve.ScalarBaseMult`. -/
def ScalarBaseMult (c : Curve) (k : List Nat) : Option Point :=
  ScalarMult c c.Gx c.Gy k

/-! ## Modular square root -/

/-- `LegendreSymbol(a, p)`. -/
def LegendreSymbol (a p : Int) : Int :=
  if a % p = 0 then 0
  else
    let ps := p - 1
    let ls := Exp a (ps / 2) (some p)
    if ls = ps then -1 else 1

/-- The loop `for c.Mod(s, TWO).Cmp(ZERO) == 0 { s.Div(s, TWO); e.Add(e, ONE) }`. -/
def splitTwos : Nat → Int → Int → Option (Int × Int)
  | 0, _, _ => none
  | fuel + 1, s, e => if s % 2 = 0 then splitTwos fuel (s / 2) (e + 1) else some (s, e)

/-- The loop `for LegendreSymbol(n, p) != -1 { n.Add(n, ONE) }`. -/
def scanNonResidue (p : Int) : Nat → Int → Option Int
  | 0, _ => none
  | fuel + 1, n => if LegendreSymbol n p ≠ -1 then scanNonResidue p fuel (n + 1) else some n

/-- The loop `for ; m.Cmp(r) < 0; m.Add(m, ONE) { if t.Cmp(ONE) == 0 { break }; t.Exp(t, TWO, p) }`
with `cnt` passes left before `m` reaches `r`; the final `(m, t)`. -/
def scanOrder (p : Int) : Nat → Int → Int → Int × Int
  | 0, m, t => (m, t)
  | cnt + 1, m, t => if t = 1 then (m, t) else scanOrder p cnt (m + 1) (Exp t 2 (some p))

/-- The loop variables `x, b, g, r` of the main loop of `Sqrt`. -/
structure TSState where
  x : Int
  b : Int
  g : Int
  r : Int
deriving DecidableEq, Repr

/-- The value of `m` when the scan of one pass of the main loop of `Sqrt` ends. -/
def TSState.m (p : Int) (s : TSState) : Int :=
  (scanOrder p s.r.toNat 0 s.b).1

/-- The updates at the end of one pass of the main loop of `Sqrt` (taken when `m ≠ 0`). -/
def TSState.next (p : Int) (s : TSState) : TSState :=
  let m := s.m p
  let gs := Exp s.g (Exp 2 (s.r - m - 1) none) (some p)
  let g1 := gs * gs % p
  let x1 := s.x * gs % p
  let b1 := s.b * g1 % p
  ⟨x1, b1, g1, m⟩

/-- The main `for { ... }` loop of `Sqrt`. -/
def tonelliLoop (p : Int) : Nat → TSState → Option Int
  | 0, _ => none
  | fuel + 1, s => if s.m p = 0 then some s.x else tonelliLoop p fuel (s.next p)

/-- The part of `Sqrt` between the fast paths and the main loop: split `p - 1 = s * 2 ^ e`,
scan for a non-residue `n`, and set up `x, b, g, r`. -/
def tonelliInit (fuel : Nat) (p a : Int) : Option TSState :=
  match splitTwos fuel (p - 1) 0 with
  | none => none
  | some (s, e) =>
    match scanNonResidue p fuel 2 with
    | none => none
    | some n => some ⟨Exp a ((s + 1) / 2) (some p), Exp a s (some p), Exp n s (some p), e⟩

/-- `Curve.Sqrt`; every loop may run `fuel` times, `none` when that is not enough. -/
def Sqrt (fuel : Nat) (c : Curve) (a : Int) : Option Int :=
  let p := c.P
  if a = 0 then some 0
  else if p = 2 then some (a % p)
  else if LegendreSymbol a p ≠ 1 then some 0
  else if p % 4 = 3 then some (Exp a ((p + 1) / 4) (some p))
  else
    match tonelliInit fuel p a with
    | none => none
    | some st => tonelliLoop p fuel st

/-- The states of the main loop of `Sqrt` that follow `s0`: `s0` itself, and the state after
one more pass from a state in which the pass does not return. -/
inductive TSReach (p : Int) (s0 : TSState) : TSState → Prop
  | start : TSReach p s0 s0
  | pass (s : TSState) : TSReach p s0 s → s.m p ≠ 0 → TSReach p s0 (s.next p)

/-- The invariant of the main loop of `Sqrt` for the prime `q` and the residue class `a` whose
root is sought: `x` and `b` are reduced, `r ≥ 1`, `x² = a·b`, `g` has order `2 ^ r` and the order
of `b` divides `2 ^ (r - 1)`. -/
def TSInv (q : ℕ) (a : ZMod q) (s : TSState) : Prop :=
  s.x % (q : Int) = s.x ∧ s.b % (q : Int) = s.b ∧ 1 ≤ s.r ∧
  (s.x : ZMod q) ^ 2 = a * (s.b : ZMod q) ∧
  (s.g : ZMod q) ^ (2 ^ (s.r.toNat - 1)) = -1 ∧
  (s.b : ZMod q) ^ (2 ^ (s.r.toNat - 1)) = 1

/-! ## Point compression -/

/-- `Curve.CompressPoint` (the curve is not used). -/
def CompressPoint (_c : Curve) (X Y : Int) : List Nat :=
  let by_ := Y % 2
  let bx := Bytes X
  (if by_ = 1 then 3 else 2) :: bx

/-- The package-level `CompressPoint(curve, X, Y)`. -/
def CompressPointPkg (c : Curve) (X Y : Int) : List Nat :=
  CompressPoint c X Y

/-- A 64-bit Go `int` after an arithmetic operation: the value wrapped into `[-2^63, 2^63)`. -/
def wrapInt64 (x : Int) : Int :=
  (x + 2 ^ 63) % 2 ^ 64 - 2 ^ 63

/-- `byteLen := (curve.Params().BitSize + 7) >> 3`. -/
def byteLen (c : Curve) : Int :=
  wrapInt64 (c.BitSize + 7) / 8

/-- The outcomes of `DecompressPoint`. -/
inductive Decompressed
  /-- `X, Y, nil`. -/
  | point (X Y : Int)
  /-- header `0x04`: whatever `elliptic.Unmarshal(curve, cp)` returns, with a nil error -/
  | unmarshal
  /-- error: Not a compressed point. (Invalid Header) -/
  | invalidHeader
  /-- error: Not a compressed point. (Require 1 + key size) -/
  | lengthMismatch
  /-- error: Not a compressed point. (Not on curve) -/
  | notOnCurve
  /-- run-time panic: index out of range at `cp[0]` -/
  | indexPanic
  /-- the loops of `Sqrt` did not end within the fuel -/
  | outOfFuel
deriving DecidableEq, Repr

/-- `Curve.DecompressPoint`. -/
def DecompressPoint (fuel : Nat) (c : Curve) (cp : List Nat) : Decompressed :=
  match cp with
  | [] => Decompressed.indexPanic
  | hd :: tl =>
    if hd = 0x03 ∨ hd = 0x02 then
      let ci : Int := if hd = 0x03 then 1 else 0
      if (cp.length : Int) ≠ 1 + byteLen c then Decompressed.lengthMismatch
      else
        let X := SetBytes tl
        let Y1 := X * X % c.P
        let Y2 := Y1 * X % c.P
        let Y3 := (Y2 + c.B) % c.P
        match Sqrt fuel c Y3 with
        | none => Decompressed.outOfFuel
        | some Y =>
          if Y = 0 then Decompressed.notOnCurve
          else if ci ≠ Y % 2 then Decompressed.point X (c.P - Y)
          else Decompressed.point X Y
    else if hd = 0x04 then Decompressed.unmarshal
    else Decompressed.invalidHeader

/-! ## The group of the curve, for the statements about `Add`, `Double` and `ScalarMult` -/

/-- The curve `y² = x³ + B` over `ZMod q` as a Weierstrass curve (`a₁ = a₂ = a₃ = a₄ = 0`,
`a₆ = B`); its non-singular points with the chord-and-tangent law form the curve group. -/
def shortW (q : ℕ) (B : Int) : WeierstrassCurve.Affine (ZMod q) :=
  ⟨0, 0, 0, 0, (B : ZMod q)⟩

/-- The value `h` (`H` of the addition formula) that `addJacobian` computes from the `x` and `z`
of its operands. -/
def addJacobianH (c : Curve) (x1 z1 x2 z2 : Int) : Int :=
  let z1z1 := z1 * z1 % c.P
  let z2z2 := z2 * z2 % c.P
  let u1 := x1 * z2z2 % c.P
  let u2 := x2 * z1z1 % c.P
  let h0 := u2 - u1
  if h0 < 0 then h0 + c.P else h0

/-- The passes of the inner loop of `ScalarMult`: the loop variables and the byte at the start
of each of the `n` passes. -/
def scalarByteTrace (c : Curve) (Bx By : Int) : Nat → Acc → Nat → List (Acc × Nat)
  | 0, _, _ => []
  | n + 1, s, b => (s, b) :: scalarByteTrace c Bx By n (scalarStep c Bx By s b) (b * 2 % 256)

/-- All passes of `ScalarMult` over the bytes of `k`, in order. -/
def scalarTrace (c : Curve) (Bx By : Int) : Acc → List Nat → List (Acc × Nat)
  | _, [] => []
  | s, b :: k =>
    scalarByteTrace c Bx By 8 s (b % 256)
      ++ scalarTrace c Bx By (scalarByte c Bx By 8 s (b % 256)) k

/-- What a pass that starts with loop variables `s` and byte `b` needs after the first set bit:
the `Z` of the doubled accumulator is non-zero modulo `P`, and when `addJacobian` is called
(top bit of `b` set) its `H` and the `Z` it yields are non-zero modulo `P`. -/
def PassSafe (c : Curve) (Bx By : Int) (s : Acc) (b : Nat) : Prop :=
  s.seenFirstTrue = true →
    (doubleJacobian c s.x s.y s.z).2.2 % c.P ≠ 0 ∧
    (Nat.land b 0x80 = 0x80 →
      addJacobianH c Bx 1 (doubleJacobian c s.x s.y s.z).1 (doubleJacobian c s.x s.y s.z).2.2
          % c.P ≠ 0 ∧
      (addJacobian c Bx By 1 (doubleJacobian c s.x s.y s.z).1
        (doubleJacobian c s.x s.y s.z).2.1 (doubleJacobian c s.x s.y s.z).2.2).2.2 % c.P ≠ 0)

/-- The Jacobian triple `(x, y, z)` of integers stands for the point `Pt` of the curve group:
`z` is non-zero modulo `q` and `Pt` is the affine point `(x / z², y / z³)`. -/
def Represents (q : ℕ) [Fact q.Prime] (B : Int) (x y z : Int) (Pt : (shortW q B).Point) : Prop :=
  (z : ZMod q) ≠ 0 ∧
    ∃ h : (shortW q B).Nonsingular ((x : ZMod q) / (z : ZMod q) ^ 2)
        ((y : ZMod q) / (z : ZMod q) ^ 3),
      Pt = WeierstrassCurve.Affine.Point.some h

/-- Loop invariant of `ScalarMult` for the base point `G = (Bx, By)`, after reading bits of
value `m`: before the first set bit (`m = 0`) the loop variables are still `(Bx, By, 1)` with
`seenFirstTrue` false; afterwards `seenFirstTrue` is true and `(x, y, z)` stands for `m • G`. -/
def AccInv (q : ℕ) [Fact q.Prime] (c : Curve) (Bx By : Int) (G : (shortW q c.B).Point)
    (m : Nat) (s : Acc) : Prop :=
  (m = 0 ∧ s = ⟨Bx, By, 1, false⟩) ∨
    (0 < m ∧ s.seenFirstTrue = true ∧ Represents q c.B s.x s.y s.z (m • G))

/-! ## Modular exponentiation and the Legendre symbol -/

/-- Square-and-multiply computes `acc * b ^ e mod m` when the fuel covers the exponent. -/
theorem powModLoop_eq (m : Int) : ∀ (fuel : Nat) (b : Int) (e : Nat) (acc : Int),
    e ≤ fuel → acc % m = acc → powModLoop m fuel b e acc = acc * b ^ e % m := by
  intro fuel
  induction fuel with
  | zero =>
    intro b e acc he hacc
    have : e = 0 := by omega
    subst this
    simp [powModLoop, hacc]
  | succ k ih =>
    intro b e acc he hacc
    unfold powModLoop
    by_cases h0 : e = 0
    · subst h0; simp [hacc]
    · rw [if_neg h0]
      have hle : e / 2 ≤ k := by omega
      have hsq : (b * b % m) ^ (e / 2) % m = (b * b) ^ (e / 2) % m := by
        have : (b * b % m) ≡ b * b [ZMOD m] := Int.mod_modEq _ _
        exact (this.pow _)
      by_cases h1 : e % 2 = 1
      · rw [if_pos h1, ih _ _ _ hle (Int.emod_emod_of_dvd _ (dvd_refl m))]
        have he2 : e = 2 * (e / 2) + 1 := by omega
        have e1 : acc * b % m * (b * b % m) ^ (e / 2) % m
            = (acc * b) * (b * b) ^ (e / 2) % m := by
          rw [Int.mul_emod, Int.emod_emod_of_dvd _ (dvd_refl m), hsq, ← Int.mul_emod]
        rw [e1]
        conv_rhs => rw [he2]
        congr 1
        rw [pow_succ, pow_mul]; ring
      · rw [if_neg h1, ih _ _ _ hle hacc]
        have he2 : e = 2 * (e / 2) := by omega
        have e1 : acc * (b * b % m) ^ (e / 2) % m = acc * (b * b) ^ (e / 2) % m := by
          rw [Int.mul_emod, hsq, ← Int.mul_emod]
        rw [e1]
        conv_rhs => rw [he2]
        congr 1
        rw [pow_mul]; ring

/-- With a non-zero modulus `Exp` is the modular power. -/
theorem Exp_some (x y m : Int) (hm : m ≠ 0) : Exp x y (some m) = x ^ y.toNat % m := by
  unfold Exp
  simp only [if_neg hm]
  rw [powModLoop_eq m _ _ _ _ (le_refl _) (Int.emod_emod_of_dvd _ (dvd_refl m))]
  rw [Int.mul_emod, Int.emod_emod_of_dvd _ (dvd_refl m), ← Int.mul_emod, one_mul]
  exact ((Int.mod_modEq x m).pow _)

/-- A modulus whose `toNat` is prime is that natural number. -/
theorem prime_toNat_cast {p : Int} (hp : Nat.Prime p.toNat) : ((p.toNat : Nat) : Int) = p := by
  apply Int.toNat_of_nonneg
  by_contra h
  push_neg at h
  have h0 : p.toNat = 0 := Int.toNat_eq_zero.mpr h.le
  rw [h0] at hp
  exact Nat.not_prime_zero hp

/-- For an odd prime `q` the exponent `(q - 1) / 2` of `LegendreSymbol` is `q / 2`. -/
theorem odd_prime_half {q : ℕ} (hq : q.Prime) (hq2 : q ≠ 2) :
    (((q : Int) - 1) / 2).toNat = q / 2 := by
  have h := hq.eq_two_or_odd
  have h2 := hq.two_le
  omega

/-- Being `q - 1` after reduction is being `-1` in `ZMod q`. -/
theorem cast_eq_neg_one_iff (q : ℕ) [Fact q.Prime] (x : Int) :
    x % (q : Int) = (q : Int) - 1 ↔ (x : ZMod q) = -1 := by
  have hq := (Fact.out : q.Prime).two_le
  have h1 : ((q : Int) - 1) % (q : Int) = (q : Int) - 1 :=
    Int.emod_eq_of_lt (by omega) (by omega)
  have h2 : (((q : Int) - 1 : Int) : ZMod q) = -1 := by simp
  rw [← h2, ZMod.intCast_eq_intCast_iff', h1]

/-- Being `0` after reduction is being `0` in `ZMod q`. -/
theorem cast_eq_zero_iff (q : ℕ) (x : Int) :
    x % (q : Int) = 0 ↔ (x : ZMod q) = 0 := by
  rw [ZMod.intCast_zmod_eq_zero_iff_dvd, Int.dvd_iff_emod_eq_zero]

/-- Being `1` after reduction is being `1` in `ZMod q`. -/
theorem cast_eq_one_iff (q : ℕ) [Fact q.Prime] (x : Int) :
    x % (q : Int) = 1 ↔ (x : ZMod q) = 1 := by
  have hq := (Fact.out : q.Prime).two_le
  have h1 : (1 : Int) % (q : Int) = 1 := Int.emod_eq_of_lt (by omega) (by omega)
  have h2 : ((1 : Int) : ZMod q) = 1 := by simp
  rw [← h2, ZMod.intCast_eq_intCast_iff', h1]

/-- The three branches of `LegendreSymbol`, read in `ZMod q`. -/
theorem legendre_cast (q : ℕ) [Fact q.Prime] (hq2 : q ≠ 2) (a : Int) :
    LegendreSymbol a q
      = if (a : ZMod q) = 0 then 0 else if (a : ZMod q) ^ (q / 2) = -1 then -1 else 1 := by
  have hq := (Fact.out : q.Prime)
  have hq0 : (q : Int) ≠ 0 := by exact_mod_cast hq.ne_zero
  unfold LegendreSymbol
  simp only [Exp_some _ _ _ hq0, odd_prime_half hq hq2]
  by_cases h0 : (a : ZMod q) = 0
  · rw [if_pos ((cast_eq_zero_iff q a).mpr h0), if_pos h0]
  · rw [if_neg (fun h => h0 ((cast_eq_zero_iff q a).mp h)), if_neg h0]
    have key : a ^ (q / 2) % (q : Int) = (q : Int) - 1 ↔ (a : ZMod q) ^ (q / 2) = -1 := by
      have h1 : (a ^ (q / 2) % (q : Int) = (q : Int) - 1) ↔ ((a ^ (q / 2) : Int) : ZMod q) = -1 := by
        have := cast_eq_neg_one_iff q (a ^ (q / 2))
        simpa using this
      rw [h1]; push_cast; rfl
    by_cases h1 : (a : ZMod q) ^ (q / 2) = -1
    · rw [if_pos (key.mpr h1), if_pos h1]
    · rw [if_neg (fun h => h1 (key.mp h)), if_neg h1]

/-- In odd characteristic `-1` and `1` differ. -/
theorem neg_one_ne_one_zmod (q : ℕ) [Fact q.Prime] (hq2 : q ≠ 2) : (-1 : ZMod q) ≠ 1 := by
  haveI : Fact (2 < q) := ⟨lt_of_le_of_ne (Fact.out : q.Prime).two_le (Ne.symm hq2)⟩
  exact ZMod.neg_one_ne_one

/-- The result `1` of `LegendreSymbol`: non-zero with Euler power `1`. -/
theorem legendre_eq_one_iff (q : ℕ) [Fact q.Prime] (hq2 : q ≠ 2) (a : Int) :
    LegendreSymbol a q = 1 ↔ (a : ZMod q) ≠ 0 ∧ (a : ZMod q) ^ (q / 2) = 1 := by
  rw [legendre_cast q hq2 a]
  have hne := neg_one_ne_one_zmod q hq2
  by_cases h0 : (a : ZMod q) = 0
  · simp [h0]
  · rcases ZMod.pow_div_two_eq_neg_one_or_one q h0 with h | h
    · simp [h0, h, hne.symm]
    · simp [h0, h, hne]

/-- The result `-1` of `LegendreSymbol`: non-zero with Euler power `-1`. -/
theorem legendre_eq_neg_one_iff (q : ℕ) [Fact q.Prime] (hq2 : q ≠ 2) (a : Int) :
    LegendreSymbol a q = -1 ↔ (a : ZMod q) ≠ 0 ∧ (a : ZMod q) ^ (q / 2) = -1 := by
  rw [legendre_cast q hq2 a]
  by_cases h0 : (a : ZMod q) = 0
  · simp [h0]
  · by_cases h : (a : ZMod q) ^ (q / 2) = -1
    · simp [h0, h]
    · simp [h0, h]

/-- The result `0` of `LegendreSymbol`: the zero class. -/
theorem legendre_eq_zero_iff (q : ℕ) [Fact q.Prime] (hq2 : q ≠ 2) (a : Int) :
    LegendreSymbol a q = 0 ↔ (a : ZMod q) = 0 := by
  rw [legendre_cast q hq2 a]
  by_cases h0 : (a : ZMod q) = 0
  · simp [h0]
  · by_cases h : (a : ZMod q) ^ (q / 2) = -1
    · simp [h0, h]
    · simp [h0, h]

/-- An integer square root modulo `q` is a square root in `ZMod q`. -/
theorem exists_sq_iff_isSquare (q : ℕ) [Fact q.Prime] (a : Int) :
    (∃ y : Int, y * y % (q : Int) = a % (q : Int)) ↔ IsSquare (a : ZMod q) := by
  constructor
  · rintro ⟨y, hy⟩
    refine ⟨(y : ZMod q), ?_⟩
    have := (ZMod.intCast_eq_intCast_iff' (y * y) a q).mpr hy
    rw [← this]; push_cast; rfl
  · rintro ⟨r, hr⟩
    refine ⟨(r.val : Int), ?_⟩
    apply (ZMod.intCast_eq_intCast_iff' _ _ q).mp
    push_cast
    rw [ZMod.natCast_zmod_val, hr]

/-- Equal classes and a reduced right-hand side give the remainder. -/
theorem emod_eq_of_cast_eq (q : ℕ) (x a : Int) (h : (x : ZMod q) = (a : ZMod q))
    (ha0 : 0 ≤ a) (haq : a < q) : x % (q : Int) = a := by
  rw [(ZMod.intCast_eq_intCast_iff' x a q).mp h]
  exact Int.emod_eq_of_lt ha0 haq

/-- C6. For an odd prime `p` and every integer `a`, `LegendreSymbol(a, p)` is one of `-1, 0, 1`;
it is `0` exactly when `a ≡ 0 (mod p)`, `1` exactly when `a` is a non-zero quadratic residue
modulo `p`, and `-1` exactly when `a` is not a quadratic residue. -/
theorem legendreSymbol_spec (p : Int) (hp : Nat.Prime p.toNat) (hodd : p % 2 = 1) (a : Int) :
    (LegendreSymbol a p = -1 ∨ LegendreSymbol a p = 0 ∨ LegendreSymbol a p = 1) ∧
    (LegendreSymbol a p = 0 ↔ a % p = 0) ∧
    (LegendreSymbol a p = 1 ↔ (a % p ≠ 0 ∧ ∃ y : Int, y * y % p = a % p)) ∧
    (LegendreSymbol a p = -1 ↔ ¬ ∃ y : Int, y * y % p = a % p) := by
  obtain ⟨q, hq⟩ : ∃ q : ℕ, p = (q : Int) := ⟨p.toNat, (prime_toNat_cast hp).symm⟩
  subst hq
  rw [Int.toNat_natCast] at hp
  haveI : Fact q.Prime := ⟨hp⟩
  have hq2 : q ≠ 2 := by rintro rfl; simp at hodd
  have hne := neg_one_ne_one_zmod q hq2
  have hz0 : a % (q : Int) = 0 ↔ (a : ZMod q) = 0 := cast_eq_zero_iff q a
  simp only [exists_sq_iff_isSquare, hz0, ne_eq]
  by_cases h0 : (a : ZMod q) = 0
  · have hz := (legendre_eq_zero_iff q hq2 a).mpr h0
    rw [hz]
    simp [h0]
  · have e1 := legendre_eq_one_iff q hq2 a
    have e2 := legendre_eq_neg_one_iff q hq2 a
    have e0 := legendre_eq_zero_iff q hq2 a
    have eul := ZMod.euler_criterion q h0
    rcases ZMod.pow_div_two_eq_neg_one_or_one q h0 with h | h
    · have l1 : LegendreSymbol a q = 1 := e1.mpr ⟨h0, h⟩
      rw [l1]
      simp [h0, eul.mpr h]
    · have l1 : LegendreSymbol a q = -1 := e2.mpr ⟨h0, h⟩
      rw [l1]
      have hns : ¬ IsSquare (a : ZMod q) := fun hs => hne ((h.symm.trans (eul.mp hs)))
      simp [h0, hns]

/-- C6, at `p = 7` and `a = 3`. -/
theorem legendreSymbol_spec_witness :
    (LegendreSymbol 3 7 = -1 ∨ LegendreSymbol 3 7 = 0 ∨ LegendreSymbol 3 7 = 1) ∧
    (LegendreSymbol 3 7 = 0 ↔ (3 : Int) % 7 = 0) ∧
    (LegendreSymbol 3 7 = 1 ↔ ((3 : Int) % 7 ≠ 0 ∧ ∃ y : Int, y * y % 7 = 3 % 7)) ∧
    (LegendreSymbol 3 7 = -1 ↔ ¬ ∃ y : Int, y * y % 7 = 3 % 7) :=
  legendreSymbol_spec 7 (by show Nat.Prime 7; norm_num) (by decide) 3

/-! ## The loops of `Sqrt` -/

/-- The loop that halves `s` ends within `s` passes with `s = s1 * 2 ^ k`, `s1` odd. -/
theorem splitTwos_spec : ∀ (fuel : Nat) (s e : Int), 0 < s → s.toNat < fuel →
    ∃ (s1 : Int) (k : Nat), splitTwos fuel s e = some (s1, e + k) ∧ s1 % 2 = 1 ∧ 0 < s1 ∧
      s = s1 * 2 ^ k := by
  intro fuel
  induction fuel with
  | zero => intro s e _ h; omega
  | succ n ih =>
    intro s e hs hf
    unfold splitTwos
    by_cases h2 : s % 2 = 0
    · rw [if_pos h2]
      obtain ⟨s1, k, h1, h3, h4, h5⟩ := ih (s / 2) (e + 1) (by omega) (by omega)
      refine ⟨s1, k + 1, ?_, h3, h4, ?_⟩
      · rw [h1]; push_cast; congr 2; ring
      · have : s = 2 * (s / 2) := by omega
        rw [this, h5]; ring
    · rw [if_neg h2]
      exact ⟨s, 0, by simp, by omega, hs, by simp⟩

/-- The scan for a non-residue ends when a non-residue lies within the fuel. -/
theorem scanNonResidue_spec (p : Int) : ∀ (fuel : Nat) (n n0 : Int), n ≤ n0 →
    (n0 - n).toNat < fuel → LegendreSymbol n0 p = -1 →
    ∃ n1, scanNonResidue p fuel n = some n1 ∧ LegendreSymbol n1 p = -1 := by
  intro fuel
  induction fuel with
  | zero => intro n n0 _ h; omega
  | succ k ih =>
    intro n n0 hle hf hn0
    unfold scanNonResidue
    by_cases h : LegendreSymbol n p = -1
    · exact ⟨n, by simp [h], h⟩
    · have hne : n ≠ n0 := by rintro rfl; exact h hn0
      simp only [ne_eq, h, not_false_eq_true, if_true]
      exact ih (n + 1) n0 (by omega) (by omega) hn0

/-- An odd prime has a non-residue in `[2, q)`. -/
theorem exists_nonResidue (q : ℕ) [Fact q.Prime] (hq2 : q ≠ 2) :
    ∃ n0 : Int, 2 ≤ n0 ∧ n0 < q ∧ LegendreSymbol n0 q = -1 := by
  have hchar : ringChar (ZMod q) ≠ 2 := by rw [ZMod.ringChar_zmod_n]; exact hq2
  obtain ⟨a, ha⟩ := FiniteField.exists_nonsquare hchar
  have ha0 : a ≠ 0 := by rintro rfl; exact ha isSquare_zero
  have ha1 : a ≠ 1 := by rintro rfl; exact ha isSquare_one
  have hcast : (((a.val : ℕ) : Int) : ZMod q) = a := by
    push_cast; exact ZMod.natCast_zmod_val a
  have hv0 : a.val ≠ 0 := fun h => ha0 ((ZMod.val_eq_zero a).mp h)
  have hv1 : a.val ≠ 1 := by
    intro h
    apply ha1
    have := ZMod.natCast_zmod_val a
    rw [h] at this
    simpa using this.symm
  refine ⟨(a.val : Int), by omega, by exact_mod_cast ZMod.val_lt a, ?_⟩
  rw [legendre_eq_neg_one_iff q hq2, hcast]
  refine ⟨ha0, ?_⟩
  rcases ZMod.pow_div_two_eq_neg_one_or_one q ha0 with h | h
  · exact absurd ((ZMod.euler_criterion q ha0).mpr h) ha
  · exact h

/-- The inner scan stops at the least `j` with `t ^ (2 ^ j) = 1`, or after `cnt` passes. -/
theorem scanOrder_spec (q : ℕ) [Fact q.Prime] : ∀ (cnt : Nat) (m t : Int), t % (q : Int) = t →
    ∃ j : Nat, j ≤ cnt ∧ (scanOrder q cnt m t).1 = m + j ∧
      (∀ i, i < j → (t : ZMod q) ^ (2 ^ i) ≠ 1) ∧ (j < cnt → (t : ZMod q) ^ (2 ^ j) = 1) := by
  have hq0 : (q : Int) ≠ 0 := by exact_mod_cast (Fact.out : q.Prime).ne_zero
  intro cnt
  induction cnt with
  | zero => intro m t _; exact ⟨0, le_refl _, by simp [scanOrder], by simp, by simp⟩
  | succ n ih =>
    intro m t ht
    unfold scanOrder
    by_cases h1 : t = 1
    · rw [if_pos h1]
      exact ⟨0, by omega, by simp, by simp, fun _ => by simp [h1]⟩
    · rw [if_neg h1]
      have hc1 : (t : ZMod q) ≠ 1 := by
        intro h
        have := (cast_eq_one_iff q t).mpr h
        rw [ht] at this
        exact h1 this
      have hred : Exp t 2 (some (q : Int)) % (q : Int) = Exp t 2 (some (q : Int)) := by
        rw [Exp_some _ _ _ hq0]; exact Int.emod_emod_of_dvd _ (dvd_refl _)
      have hcast : ((Exp t 2 (some (q : Int)) : Int) : ZMod q) = (t : ZMod q) ^ 2 := by
        rw [Exp_some _ _ _ hq0, ← ZMod.intCast_mod]
        rw [Int.emod_emod_of_dvd _ (dvd_refl _), ZMod.intCast_mod]
        push_cast; rfl
      obtain ⟨j, hj, hm, hlt, hone⟩ := ih (m + 1) _ hred
      refine ⟨j + 1, by omega, ?_, ?_, ?_⟩
      · rw [hm]; push_cast; ring
      · intro i hi
        cases i with
        | zero => simpa using hc1
        | succ i =>
          have := hlt i (by omega)
          rw [hcast, ← pow_mul, ← pow_succ'] at this
          exact this
      · intro hjn
        have := hone (by omega)
        rw [hcast, ← pow_mul, ← pow_succ'] at this
        exact this

/-- Under the invariant the exponent found is below `r` and is the exact 2-order of `b`. -/
theorem tsInv_m_spec {q : ℕ} [Fact q.Prime] {a : ZMod q} {s : TSState} (h : TSInv q a s) :
    ∃ M : Nat, s.m q = M ∧ M < s.r.toNat ∧ (s.b : ZMod q) ^ (2 ^ M) = 1 ∧
      ∀ i, i < M → (s.b : ZMod q) ^ (2 ^ i) ≠ 1 := by
  obtain ⟨_, hb, hr, _, _, hbo⟩ := h
  obtain ⟨j, hj, hm, hlt, hone⟩ := scanOrder_spec q s.r.toNat 0 s.b hb
  have hjlt : j < s.r.toNat := by
    by_contra hge
    have : j = s.r.toNat := by omega
    exact hlt (s.r.toNat - 1) (by omega) hbo
  refine ⟨j, ?_, hjlt, hone hjlt, hlt⟩
  unfold TSState.m
  rw [hm]; simp

/-- Reduction modulo `q` does not change the class in `ZMod q`. -/
theorem cast_emod (q : ℕ) (x : Int) : ((x % (q : Int) : Int) : ZMod q) = (x : ZMod q) :=
  ZMod.intCast_mod x q

/-- The class of `Exp x k q` is the power of the class. -/
theorem cast_Exp (q : ℕ) [Fact q.Prime] (x : Int) (k : Nat) :
    ((Exp x (k : Int) (some (q : Int)) : Int) : ZMod q) = (x : ZMod q) ^ k := by
  have hq0 : (q : Int) ≠ 0 := by exact_mod_cast (Fact.out : q.Prime).ne_zero
  rw [Exp_some _ _ _ hq0, cast_emod, Int.toNat_natCast]
  push_cast; rfl

/-- The result of `Exp` with modulus `q` is reduced. -/
theorem Exp_red (q : ℕ) [Fact q.Prime] (x y : Int) :
    Exp x y (some (q : Int)) % (q : Int) = Exp x y (some (q : Int)) := by
  have hq0 : (q : Int) ≠ 0 := by exact_mod_cast (Fact.out : q.Prime).ne_zero
  rw [Exp_some _ _ _ hq0]; exact Int.emod_emod_of_dvd _ (dvd_refl _)

/-- The call `Exp(2, k, nil)` is `2 ^ k`. -/
theorem Exp_two_none (k : Nat) : Exp 2 (k : Int) none = ((2 ^ k : Nat) : Int) := by
  unfold Exp
  by_cases hk : (k : Int) ≤ 0
  · have : k = 0 := by omega
    subst this; simp
  · simp only [hk, if_false, Int.toNat_natCast]; push_cast; rfl

/-- One pass of the main loop keeps the invariant and lowers `r`. -/
theorem tsInv_next {q : ℕ} [Fact q.Prime] {a : ZMod q} {s : TSState} (h : TSInv q a s)
    (hm0 : s.m q ≠ 0) : TSInv q a (s.next q) ∧ (s.next q).r < s.r := by
  obtain ⟨M, hM, hMlt, hbM, hbmin⟩ := tsInv_m_spec h
  obtain ⟨hx, hb, hr, hsq, hgo, hbo⟩ := h
  have hMpos : 0 < M := by
    rcases Nat.eq_zero_or_pos M with h0 | h0
    · exact absurd (by rw [hM, h0]; rfl) hm0
    · exact h0
  have hrR : s.r = (s.r.toNat : Int) := (Int.toNat_of_nonneg (by omega)).symm
  have hexp : s.r - s.m q - 1 = ((s.r.toNat - M - 1 : Nat) : Int) := by
    rw [hM]; omega
  set gs := Exp s.g (Exp 2 (s.r - s.m q - 1) none) (some (q : Int)) with hgs
  have hgsc : (gs : ZMod q) = (s.g : ZMod q) ^ (2 ^ (s.r.toNat - M - 1)) := by
    rw [hgs, hexp, Exp_two_none, cast_Exp]
  have hg1 : ((gs * gs % (q : Int) : Int) : ZMod q) = (s.g : ZMod q) ^ (2 ^ (s.r.toNat - M)) := by
    rw [cast_emod]; push_cast
    rw [hgsc, ← pow_add, ← two_mul, ← pow_succ']
    congr 2; omega
  have hg1m : (gs : ZMod q) * (gs : ZMod q) = (s.g : ZMod q) ^ (2 ^ (s.r.toNat - M)) := by
    rw [← hg1, cast_emod]; push_cast; rfl
  have hbm1 : (s.b : ZMod q) ^ (2 ^ (M - 1)) = -1 := by
    have h1 : ((s.b : ZMod q) ^ (2 ^ (M - 1))) * ((s.b : ZMod q) ^ (2 ^ (M - 1))) = 1 := by
      rw [← pow_add, ← two_mul, ← pow_succ']
      have : M - 1 + 1 = M := by omega
      rw [this]; exact hbM
    rcases mul_self_eq_one_iff.mp h1 with h2 | h2
    · exact absurd h2 (hbmin (M - 1) (by omega))
    · exact h2
  have hg1o : ((s.g : ZMod q) ^ (2 ^ (s.r.toNat - M))) ^ (2 ^ (M - 1)) = -1 := by
    rw [← pow_mul, ← pow_add]
    have : s.r.toNat - M + (M - 1) = s.r.toNat - 1 := by omega
    rw [this]; exact hgo
  have hnext : s.next q = ⟨s.x * gs % (q : Int), s.b * (gs * gs % (q : Int)) % (q : Int),
      gs * gs % (q : Int), s.m q⟩ := rfl
  rw [hnext]
  refine ⟨⟨Int.emod_emod_of_dvd _ (dvd_refl _), Int.emod_emod_of_dvd _ (dvd_refl _), ?_, ?_, ?_, ?_⟩, ?_⟩
  · show 1 ≤ s.m q
    rw [hM]; omega
  · show ((s.x * gs % (q : Int) : Int) : ZMod q) ^ 2
      = a * ((s.b * (gs * gs % (q : Int)) % (q : Int) : Int) : ZMod q)
    rw [cast_emod, cast_emod]
    push_cast
    rw [mul_pow, hsq]; ring
  · show ((gs * gs % (q : Int) : Int) : ZMod q) ^ (2 ^ ((s.m q).toNat - 1)) = -1
    rw [hg1, hM, Int.toNat_natCast]; exact hg1o
  · show ((s.b * (gs * gs % (q : Int)) % (q : Int) : Int) : ZMod q) ^ (2 ^ ((s.m q).toNat - 1)) = 1
    rw [cast_emod]
    push_cast
    rw [hg1m, hM, Int.toNat_natCast, mul_pow, hbm1, hg1o]; ring
  · show s.m q < s.r
    rw [hM]; omega

/-- When the scan finds `m = 0` the current `x` is a square root. -/
theorem tsInv_done {q : ℕ} [Fact q.Prime] {a : ZMod q} {s : TSState} (h : TSInv q a s)
    (hm0 : s.m q = 0) : (s.x : ZMod q) ^ 2 = a := by
  obtain ⟨M, hM, _, hbM, _⟩ := tsInv_m_spec h
  obtain ⟨_, _, _, hsq, _, _⟩ := h
  have : M = 0 := by rw [hm0] at hM; exact_mod_cast hM.symm
  subst this
  rw [hsq]
  simp at hbM
  rw [hbM, mul_one]

/-- The main loop returns a reduced square root when the fuel exceeds `r`. -/
theorem tonelliLoop_spec (q : ℕ) [Fact q.Prime] (a : ZMod q) : ∀ (fuel : Nat) (s : TSState),
    TSInv q a s → s.r.toNat < fuel →
    ∃ x, tonelliLoop q fuel s = some x ∧ x % (q : Int) = x ∧ (x : ZMod q) ^ 2 = a := by
  intro fuel
  induction fuel with
  | zero => intro s _ h; omega
  | succ n ih =>
    intro s hinv hf
    unfold tonelliLoop
    by_cases hm0 : s.m q = 0
    · rw [if_pos hm0]
      exact ⟨s.x, rfl, hinv.1, tsInv_done hinv hm0⟩
    · rw [if_neg hm0]
      obtain ⟨hinv1, hlt⟩ := tsInv_next hinv hm0
      have h1 := hinv1.2.2.1
      exact ih _ hinv1 (by omega)

/-- Every state the main loop reaches satisfies the invariant. -/
theorem tsReach_inv {q : ℕ} [Fact q.Prime] {a : ZMod q} {s0 s : TSState}
    (hr : TSReach q s0 s) (h0 : TSInv q a s0) : TSInv q a s := by
  induction hr with
  | start => exact h0
  | pass s _ hm ih => exact (tsInv_next ih hm).1

/-- With fuel at least `q` the set-up of Tonelli-Shanks ends and establishes the invariant. -/
theorem tonelliInit_spec (q : ℕ) [Fact q.Prime] (hq2 : q ≠ 2) (a : Int)
    (hls : LegendreSymbol a q = 1) (fuel : Nat) (hf : q ≤ fuel) :
    (∃ n, scanNonResidue q fuel 2 = some n ∧ LegendreSymbol n q = -1) ∧
    ∃ s0, tonelliInit fuel q a = some s0 ∧ TSInv q (a : ZMod q) s0 ∧ s0.r.toNat < fuel := by
  have hq := (Fact.out : q.Prime)
  have hq2le := hq.two_le
  have hodd := hq.eq_two_or_odd
  obtain ⟨s1, k, hsplit, hs1odd, hs1pos, hs1⟩ :=
    splitTwos_spec fuel ((q : Int) - 1) 0 (by omega) (by omega)
  obtain ⟨n0, hn0a, hn0b, hn0c⟩ := exists_nonResidue q hq2
  obtain ⟨n, hscan, hn⟩ := scanNonResidue_spec q fuel 2 n0 hn0a (by omega) hn0c
  refine ⟨⟨n, hscan, hn⟩, ?_⟩
  obtain ⟨S, hS⟩ : ∃ S : ℕ, s1 = (S : Int) := ⟨s1.toNat, (Int.toNat_of_nonneg hs1pos.le).symm⟩
  subst hS
  have hSodd : S % 2 = 1 := by omega
  have hqS : q - 1 = S * 2 ^ k := by
    have : ((q - 1 : ℕ) : Int) = ((S * 2 ^ k : ℕ) : Int) := by
      push_cast; rw [← hs1]; omega
    exact_mod_cast this
  have hk : 1 ≤ k := by
    rcases Nat.eq_zero_or_pos k with h0 | h0
    · subst h0; simp at hqS; omega
    · exact h0
  have hhalf : q / 2 = S * 2 ^ (k - 1) := by
    have h2 : 2 ^ k = 2 * 2 ^ (k - 1) := by
      rw [← pow_succ']; congr 1; omega
    rw [h2] at hqS
    have : q - 1 = 2 * (S * 2 ^ (k - 1)) := by rw [hqS]; ring
    omega
  have hklt : k < q := by
    have h1 : k < 2 ^ k := Nat.lt_two_pow k
    have h2 : 2 ^ k ≤ S * 2 ^ k := Nat.le_mul_of_pos_left _ (by omega)
    omega
  have hinit : tonelliInit fuel q a = some ⟨Exp a (((S : Int) + 1) / 2) (some (q : Int)),
      Exp a (S : Int) (some (q : Int)), Exp n (S : Int) (some (q : Int)), 0 + (k : Int)⟩ := by
    unfold tonelliInit
    rw [hsplit]
    simp only [hscan]
  have hx2 : ((S : Int) + 1) / 2 = (((S + 1) / 2 : ℕ) : Int) := by omega
  obtain ⟨ha0, hapow⟩ := (legendre_eq_one_iff q hq2 a).mp hls
  obtain ⟨hn0, hnpow⟩ := (legendre_eq_neg_one_iff q hq2 n).mp hn
  refine ⟨_, hinit, ⟨Exp_red q _ _, Exp_red q _ _, ?_, ?_, ?_, ?_⟩, ?_⟩
  · show (1 : Int) ≤ 0 + (k : Int)
    omega
  · show ((Exp a (((S : Int) + 1) / 2) (some (q : Int)) : Int) : ZMod q) ^ 2
      = (a : ZMod q) * ((Exp a (S : Int) (some (q : Int)) : Int) : ZMod q)
    rw [hx2, cast_Exp, cast_Exp, ← pow_mul, ← pow_succ']
    congr 1; omega
  · show ((Exp n (S : Int) (some (q : Int)) : Int) : ZMod q) ^ (2 ^ ((0 + (k : Int)).toNat - 1)) = -1
    have : (0 + (k : Int)).toNat = k := by omega
    rw [this, cast_Exp, ← pow_mul, ← hhalf]; exact hnpow
  · show ((Exp a (S : Int) (some (q : Int)) : Int) : ZMod q) ^ (2 ^ ((0 + (k : Int)).toNat - 1)) = 1
    have : (0 + (k : Int)).toNat = k := by omega
    rw [this, cast_Exp, ← pow_mul, ← hhalf]; exact hapow
  · show (0 + (k : Int)).toNat < fuel
    omega

/-- The Legendre symbol of `0` is `0`. -/
theorem legendre_zero_left (p : Int) : LegendreSymbol 0 p = 0 := by
  unfold LegendreSymbol; simp

/-- For `P ≡ 3 (mod 4)` and a residue `a`, `Sqrt` takes the fast path. -/
theorem sqrt_fast_path (c : Curve) (h34 : c.P % 4 = 3) (a : Int)
    (hls : LegendreSymbol a c.P = 1) (fuel : Nat) :
    Sqrt fuel c a = some (a ^ ((c.P + 1) / 4).toNat % c.P) := by
  have ha : a ≠ 0 := by
    rintro rfl; rw [legendre_zero_left] at hls; exact absurd hls (by decide)
  have hp2 : c.P ≠ 2 := by intro h; rw [h] at h34; exact absurd h34 (by decide)
  have hp0 : c.P ≠ 0 := by intro h; rw [h] at h34; exact absurd h34 (by decide)
  unfold Sqrt
  simp only [ha, hp2, hls, h34, if_false, if_true, ne_eq, not_true_eq_false]
  rw [Exp_some _ _ _ hp0]

/-- The fast-path value squares to `a` in `ZMod q`. -/
theorem fast_path_sq (q : ℕ) [Fact q.Prime] (h34 : (q : Int) % 4 = 3) (a : Int)
    (hls : LegendreSymbol a q = 1) :
    ((a ^ (((q : Int) + 1) / 4).toNat % (q : Int) : Int) : ZMod q) ^ 2 = (a : ZMod q) := by
  have hq2 : q ≠ 2 := by rintro rfl; simp at h34
  obtain ⟨_, hapow⟩ := (legendre_eq_one_iff q hq2 a).mp hls
  have he : (((q : Int) + 1) / 4).toNat = (q + 1) / 4 := by omega
  rw [cast_emod, he]
  push_cast
  rw [← pow_mul]
  have : (q + 1) / 4 * 2 = q / 2 + 1 := by omega
  rw [this, pow_succ, hapow, one_mul]

/-- A square root in `ZMod q` of a reduced `a` squares to `a` modulo `q`. -/
theorem sq_emod_of_cast (q : ℕ) (x a : Int) (h : (x : ZMod q) ^ 2 = (a : ZMod q))
    (ha0 : 0 ≤ a) (haq : a < q) : x * x % (q : Int) = a := by
  apply emod_eq_of_cast_eq q _ _ _ ha0 haq
  push_cast; rw [← h]; ring

/-- For an odd prime, a reduced argument and fuel at least `q`, `Sqrt` returns a reduced value:
a non-zero square root of a residue, and `0` otherwise. -/
theorem Sqrt_spec (q : ℕ) [Fact q.Prime] (hq2 : q ≠ 2) (c : Curve) (hc : c.P = q) (a : Int)
    (ha0 : 0 ≤ a) (haq : a < q) (fuel : Nat) (hf : q ≤ fuel) :
    ∃ r, Sqrt fuel c a = some r ∧ 0 ≤ r ∧ r < q ∧
      (LegendreSymbol a q = 1 → r * r % (q : Int) = a ∧ r ≠ 0) ∧
      (LegendreSymbol a q ≠ 1 → r = 0) := by
  have hq := (Fact.out : q.Prime)
  have hqpos : (0 : Int) < q := by exact_mod_cast hq.pos
  have hbound : ∀ x : Int, x % (q : Int) = x → 0 ≤ x ∧ x < q := fun x hx => by
    rw [← hx]; exact ⟨Int.emod_nonneg _ hqpos.ne', Int.emod_lt_of_pos _ hqpos⟩
  have hnz : ∀ r : Int, r * r % (q : Int) = a → a ≠ 0 → r ≠ 0 := by
    rintro r hr ha rfl; simp at hr; exact ha hr.symm
  by_cases hls : LegendreSymbol a q = 1
  · have ha : a ≠ 0 := by
      rintro rfl; rw [legendre_zero_left] at hls; exact absurd hls (by decide)
    by_cases h34 : (q : Int) % 4 = 3
    · have hfast := sqrt_fast_path c (by rw [hc]; exact h34) a (by rw [hc]; exact hls) fuel
      rw [hc] at hfast
      have hsq := sq_emod_of_cast q _ a (fast_path_sq q h34 a hls) ha0 haq
      have hb := hbound (a ^ (((q : Int) + 1) / 4).toNat % (q : Int))
        (Int.emod_emod_of_dvd _ (dvd_refl _))
      exact ⟨_, hfast, hb.1, hb.2, fun _ => ⟨hsq, hnz _ hsq ha⟩, fun h => absurd hls h⟩
    · obtain ⟨_, s0, hinit, hinv, hr⟩ := tonelliInit_spec q hq2 a hls fuel hf
      obtain ⟨x, hx, hxred, hxsq⟩ := tonelliLoop_spec q (a : ZMod q) fuel s0 hinv hr
      have hsq := sq_emod_of_cast q x a hxsq ha0 haq
      have hS : Sqrt fuel c a = some x := by
        unfold Sqrt
        have hp2 : c.P ≠ 2 := by rw [hc]; exact_mod_cast hq2
        rw [hc] at hp2 ⊢
        simp only [ha, hp2, hls, h34, if_false, ne_eq, not_true_eq_false, hinit, hx]
      have hb := hbound x hxred
      exact ⟨x, hS, hb.1, hb.2, fun _ => ⟨hsq, hnz _ hsq ha⟩, fun h => absurd hls h⟩
  · refine ⟨0, ?_, le_refl _, hqpos, fun h => absurd h hls, fun _ => rfl⟩
    unfold Sqrt
    have hp2 : c.P ≠ 2 := by rw [hc]; exact_mod_cast hq2
    rw [hc] at hp2 ⊢
    by_cases ha : a = 0
    · simp [ha]
    · simp [ha, hp2, hls]

/-! ## Modular inverse and the affine conversion -/

/-- Extended Euclid returns the gcd and a coefficient of `g` for it modulo `n`. -/
theorem xgcdLoop_spec (g n : Int) : ∀ (fuel : Nat) (r0 s0 r1 s1 : Int),
    0 ≤ r0 → 0 ≤ r1 → r1.toNat < fuel → n ∣ r0 - s0 * g → n ∣ r1 - s1 * g →
    (xgcdLoop fuel r0 s0 r1 s1).1 = (Int.gcd r0 r1 : Int) ∧
      n ∣ (xgcdLoop fuel r0 s0 r1 s1).1 - (xgcdLoop fuel r0 s0 r1 s1).2 * g := by
  intro fuel
  induction fuel with
  | zero => intro r0 s0 r1 s1 _ _ h; omega
  | succ k ih =>
    intro r0 s0 r1 s1 h0 h1 hf hd0 hd1
    unfold xgcdLoop
    by_cases hr : r1 = 0
    · subst hr
      simp only [if_true]
      refine ⟨?_, hd0⟩
      rw [Int.gcd_zero_right]
      exact (Int.natAbs_of_nonneg h0).symm
    · rw [if_neg hr]
      have hr1pos : 0 < r1 := lt_of_le_of_ne h1 (Ne.symm hr)
      have hmnn : 0 ≤ r0 % r1 := Int.emod_nonneg _ hr
      have hmlt : r0 % r1 < r1 := Int.emod_lt_of_pos _ hr1pos
      have hdvd : n ∣ r0 % r1 - (s0 - r0 / r1 * s1) * g := by
        have e : r0 % r1 - (s0 - r0 / r1 * s1) * g
            = (r0 - s0 * g) - (r0 / r1) * (r1 - s1 * g) := by
          rw [Int.emod_def]; ring
        rw [e]
        exact dvd_sub hd0 (Dvd.dvd.mul_left hd1 _)
      obtain ⟨e1, e2⟩ := ih r1 s1 (r0 % r1) (s0 - r0 / r1 * s1) h1 hmnn (by omega) hd1 hdvd
      refine ⟨?_, e2⟩
      rw [e1]
      congr 1
      lift r0 to ℕ using h0
      lift r1 to ℕ using h1
      rw [← Int.natCast_mod, Int.gcd_natCast_natCast, Int.gcd_natCast_natCast,
        Nat.gcd_comm r0 r1, Nat.gcd_rec r1 r0, Nat.gcd_comm]

/-- Modulo a prime, `ModInverse` fails on the zero class. -/
theorem ModInverse_zero (q : ℕ) [Fact q.Prime] (z : Int) (hz : (z : ZMod q) = 0) :
    ModInverse z q = none := by
  have hq := (Fact.out : q.Prime)
  have hq0 : (q : Int) ≠ 0 := by exact_mod_cast hq.ne_zero
  have hz0 : z % (q : Int) = 0 := (cast_eq_zero_iff q z).mpr hz
  have hq1 : (q : Int) ≠ 1 := by exact_mod_cast hq.one_lt.ne'
  unfold ModInverse
  simp only [if_neg hq0, Int.natAbs_ofNat, hz0]
  unfold xgcdLoop
  simp [hq1]

/-- Modulo a prime, `ModInverse` returns the reduced inverse of a non-zero class. -/
theorem ModInverse_nonzero (q : ℕ) [Fact q.Prime] (z : Int) (hz : (z : ZMod q) ≠ 0) :
    ∃ w, ModInverse z q = some w ∧ 0 ≤ w ∧ w < q ∧ (w : ZMod q) * (z : ZMod q) = 1 := by
  have hq := (Fact.out : q.Prime)
  have hq0 : (q : Int) ≠ 0 := by exact_mod_cast hq.ne_zero
  have hqpos : (0 : Int) < q := by exact_mod_cast hq.pos
  have hz0 : z % (q : Int) ≠ 0 := fun h => hz ((cast_eq_zero_iff q z).mp h)
  have hnn : 0 ≤ z % (q : Int) := Int.emod_nonneg _ hq0
  have hlt : z % (q : Int) < q := Int.emod_lt_of_pos _ hqpos
  obtain ⟨e1, e2⟩ := xgcdLoop_spec (z % (q : Int)) (q : Int) (q + 1) (q : Int) 0 (z % (q : Int)) 1
    hqpos.le hnn (by omega) (by simp) (by simp)
  have hgcd : Int.gcd (q : Int) (z % (q : Int)) = 1 := by
    obtain ⟨k, hk⟩ : ∃ k : ℕ, z % (q : Int) = (k : Int) :=
      ⟨(z % (q : Int)).toNat, (Int.toNat_of_nonneg hnn).symm⟩
    rw [hk, Int.gcd_natCast_natCast]
    have hk0 : k ≠ 0 := by rintro rfl; exact hz0 (by simpa using hk)
    have hkq : k < q := by rw [hk] at hlt; exact_mod_cast hlt
    exact (Nat.Prime.coprime_iff_not_dvd hq).mpr
      (fun hd => hk0 (Nat.eq_zero_of_dvd_of_lt hd hkq))
  rw [hgcd] at e1
  have hres : ModInverse z q
      = some ((xgcdLoop (q + 1) (q : Int) 0 (z % (q : Int)) 1).2 % (q : Int)) := by
    unfold ModInverse
    simp only [if_neg hq0, Int.natAbs_ofNat]
    rw [if_pos (by simpa using e1)]
  refine ⟨_, hres, Int.emod_nonneg _ hq0, Int.emod_lt_of_pos _ hqpos, ?_⟩
  rw [e1] at e2
  have h1 := (ZMod.intCast_zmod_eq_zero_iff_dvd _ q).mpr e2
  rw [cast_emod]
  push_cast at h1
  have h2 : ((xgcdLoop (q + 1) (q : Int) 0 (z % (q : Int)) 1).2 : ZMod q) * (z : ZMod q) = 1 := by
    have := sub_eq_zero.mp h1
    exact this.symm
  exact h2

/-- On two equal affine operands `addJacobian` yields `Z = 0`. -/
theorem addJacobian_same_z (c : Curve) (x y : Int) : (addJacobian c x y 1 x y 1).2.2 = 0 := by
  simp [addJacobian]

/-- The `Z` that `doubleJacobian` yields. -/
theorem doubleJacobian_z (c : Curve) (x y z : Int) :
    (doubleJacobian c x y z).2.2 = 2 * (y * z) % c.P := rfl

/-- The affine conversion fails when `Z` is the zero class. -/
theorem affineFromJacobian_none (q : ℕ) [Fact q.Prime] (c : Curve) (hc : c.P = q) (x y z : Int)
    (hz : (z : ZMod q) = 0) : affineFromJacobian c x y z = none := by
  unfold affineFromJacobian
  rw [hc, ModInverse_zero q z hz]

/-- The affine conversion succeeds, with the inverse `w` of `Z`, when `Z` is a non-zero
class. -/
theorem affineFromJacobian_some (q : ℕ) [Fact q.Prime] (c : Curve) (hc : c.P = q) (x y z : Int)
    (hz : (z : ZMod q) ≠ 0) :
    ∃ w : Int, 0 ≤ w ∧ w < q ∧ (w : ZMod q) * (z : ZMod q) = 1 ∧
      affineFromJacobian c x y z = some (x * (w * w) % (q : Int), y * (w * w * w) % (q : Int)) := by
  obtain ⟨w, hw, h0, h1, h2⟩ := ModInverse_nonzero q z hz
  refine ⟨w, h0, h1, h2, ?_⟩
  unfold affineFromJacobian
  rw [hc, hw]

/-- For a curve with odd prime `P` and an on-curve point `(x, y)` with `y ≢ 0 (mod P)`:
`Double(x, y)` returns a point, while `Add(x, y, x, y)` does not return: `addJacobian` yields
`Z = 0`, which has no inverse. -/
theorem double_defined_add_self_undefined (c : Curve) (hp : Nat.Prime c.P.toNat)
    (hodd : c.P % 2 = 1) (x y : Int) (_hon : IsOnCurve c x y = true) (hy : y % c.P ≠ 0) :
    (∃ r, Double c x y = some r) ∧ Add c x y x y = none := by
  obtain ⟨q, hq⟩ : ∃ q : ℕ, c.P = (q : Int) := ⟨c.P.toNat, (prime_toNat_cast hp).symm⟩
  rw [hq] at hodd hy
  rw [hq, Int.toNat_natCast] at hp
  haveI : Fact q.Prime := ⟨hp⟩
  have hy0 : (y : ZMod q) ≠ 0 := fun h => hy ((cast_eq_zero_iff q y).mpr h)
  have h2 : ((2 : Int) : ZMod q) ≠ 0 := by
    intro h
    have hd : (q : Int) ∣ 2 := (ZMod.intCast_zmod_eq_zero_iff_dvd 2 q).mp h
    have hle : (q : Int) ≤ 2 := Int.le_of_dvd (by norm_num) hd
    have hge := hp.two_le
    omega
  constructor
  · have hz : (((doubleJacobian c x y 1).2.2 : Int) : ZMod q) ≠ 0 := by
      rw [doubleJacobian_z, hq, cast_emod]
      push_cast
      push_cast at h2
      simp [h2, hy0]
    obtain ⟨w, _, _, _, hw⟩ := affineFromJacobian_some q c hq
      (doubleJacobian c x y 1).1 (doubleJacobian c x y 1).2.1 _ hz
    exact ⟨_, hw⟩
  · unfold Add
    apply affineFromJacobian_none q c hq
    rw [addJacobian_same_z]; simp

/-- The point `(1, 2)` of `y² = x³ + 3` over `F_7`: its double is defined, its sum with itself
is not. -/
theorem double_defined_add_self_undefined_witness :
    IsOnCurve ⟨7, 13, 3, 1, 2, 3⟩ 1 2 = true ∧
    ((∃ r, Double ⟨7, 13, 3, 1, 2, 3⟩ 1 2 = some r) ∧ Add ⟨7, 13, 3, 1, 2, 3⟩ 1 2 1 2 = none) :=
  ⟨by decide, double_defined_add_self_undefined ⟨7, 13, 3, 1, 2, 3⟩
    (by show Nat.Prime 7; norm_num) (by decide) 1 2 (by decide) (by decide)⟩

/-- C5. On the 112-bit curve the base point `(1, 2)` is on the curve and has `y ≠ 0`;
`Double(1, 2)` returns a point but `Add(1, 2, 1, 2)` does not return (`addJacobian` yields
`Z = 0` and `affineFromJacobian` fails), so the two are not both defined and equal. -/
theorem add_self_ne_double :
    IsOnCurve curveP112 1 2 = true ∧ (2 : Int) % curveP112.P ≠ 0 ∧
    Double curveP112 1 2
      = some (324518553658426726783156020576221, 4948907943291007583443129313787392) ∧
    Add curveP112 1 2 1 2 = none ∧
    ¬ ((Double curveP112 1 2).isSome ∧ (Add curveP112 1 2 1 2).isSome ∧
        Double curveP112 1 2 = Add curveP112 1 2 1 2) := by
  refine ⟨by decide!, by decide!, by decide!, by decide!, by decide!⟩

/-! ## On-curve test, square root, accessors, decompression and scalar multiplication -/

/-- C8. For a curve with `P > 0` and all integers `x`, `y`: `IsOnCurve(x, y)` is true exactly
when `(x³ + B) mod P = y² mod P`, and both sides are reduced into `[0, P)`. -/
theorem isOnCurve_iff (c : Curve) (hP : 0 < c.P) (x y : Int) :
    (IsOnCurve c x y = true ↔ (x ^ 3 + c.B) % c.P = y ^ 2 % c.P) ∧
    (0 ≤ (x ^ 3 + c.B) % c.P ∧ (x ^ 3 + c.B) % c.P < c.P) ∧
    (0 ≤ y ^ 2 % c.P ∧ y ^ 2 % c.P < c.P) := by
  refine ⟨?_, ⟨Int.emod_nonneg _ hP.ne', Int.emod_lt_of_pos _ hP⟩,
    ⟨Int.emod_nonneg _ hP.ne', Int.emod_lt_of_pos _ hP⟩⟩
  have h3 : x * x * x = x ^ 3 := by ring
  have h2 : y * y = y ^ 2 := by ring
  simp only [IsOnCurve, decide_eq_true_eq, h3, h2]

/-- C8, at the base point of the 112-bit curve. -/
theorem isOnCurve_iff_witness :
    (IsOnCurve curveP112 1 2 = true ↔ ((1 : Int) ^ 3 + curveP112.B) % curveP112.P
      = (2 : Int) ^ 2 % curveP112.P) ∧
    (0 ≤ ((1 : Int) ^ 3 + curveP112.B) % curveP112.P ∧
      ((1 : Int) ^ 3 + curveP112.B) % curveP112.P < curveP112.P) ∧
    (0 ≤ (2 : Int) ^ 2 % curveP112.P ∧ (2 : Int) ^ 2 % curveP112.P < curveP112.P) :=
  isOnCurve_iff curveP112 (by decide) 1 2

/-- C3. For a prime `P ≡ 3 (mod 4)` and `0 ≤ a < P` with `LegendreSymbol(a, P) = 1`, `Sqrt(a)`
returns `a ^ ((P + 1) / 4) mod P` (no loop is entered, so for every fuel), and the square of that
value modulo `P` is `a`; both fixed moduli are `≡ 3 (mod 4)`. -/
theorem sqrt_three_mod_four (c : Curve) (hp : Nat.Prime c.P.toNat) (h34 : c.P % 4 = 3)
    (a : Int) (ha0 : 0 ≤ a) (haP : a < c.P) (hls : LegendreSymbol a c.P = 1) (fuel : Nat) :
    Sqrt fuel c a = some (a ^ ((c.P + 1) / 4).toNat % c.P) ∧
    (a ^ ((c.P + 1) / 4).toNat % c.P) ^ 2 % c.P = a ∧
    curveP112.P % 4 = 3 ∧ curveP160.P % 4 = 3 := by
  refine ⟨sqrt_fast_path c h34 a hls fuel, ?_, by decide, by decide⟩
  obtain ⟨q, hq⟩ : ∃ q : ℕ, c.P = (q : Int) := ⟨c.P.toNat, (prime_toNat_cast hp).symm⟩
  rw [hq] at h34 hls haP ⊢
  rw [hq, Int.toNat_natCast] at hp
  haveI : Fact q.Prime := ⟨hp⟩
  rw [sq]
  exact sq_emod_of_cast q _ a (fast_path_sq q h34 a hls) ha0 haP

/-- C3, at `P = 7` and `a = 2`. -/
theorem sqrt_three_mod_four_witness :
    Sqrt 0 ⟨7, 13, 3, 1, 2, 3⟩ 2 = some ((2 : Int) ^ (((7 : Int) + 1) / 4).toNat % 7) ∧
    ((2 : Int) ^ (((7 : Int) + 1) / 4).toNat % 7) ^ 2 % 7 = 2 ∧
    curveP112.P % 4 = 3 ∧ curveP160.P % 4 = 3 :=
  sqrt_three_mod_four ⟨7, 13, 3, 1, 2, 3⟩ (by show Nat.Prime 7; norm_num) (by decide) 2
    (by decide) (by decide) (by decide) 0

/-- C7. For a prime `P ≡ 1 (mod 4)` and `0 < a < P` with `LegendreSymbol(a, P) = 1`, with fuel
at least `P`: the scan from 2 upward stops at a non-residue; the main loop starts, and in every
pass that is reached the exponent found satisfies `0 ≤ m < r` (so `r`, which becomes `m`,
strictly decreases); and `Sqrt(a)` returns an `x` with `x² mod P = a`. -/
theorem sqrt_tonelli_shanks (c : Curve) (hp : Nat.Prime c.P.toNat) (h14 : c.P % 4 = 1)
    (a : Int) (ha0 : 0 < a) (haP : a < c.P) (hls : LegendreSymbol a c.P = 1)
    (fuel : Nat) (hf : c.P.toNat ≤ fuel) :
    (∃ n, scanNonResidue c.P fuel 2 = some n ∧ LegendreSymbol n c.P = -1) ∧
    (∃ s0, tonelliInit fuel c.P a = some s0 ∧
      ∀ s, TSReach c.P s0 s → 0 ≤ s.m c.P ∧ s.m c.P < s.r ∧ (s.next c.P).r < s.r) ∧
    (∃ x, Sqrt fuel c a = some x ∧ x ^ 2 % c.P = a) := by
  obtain ⟨q, hq⟩ : ∃ q : ℕ, c.P = (q : Int) := ⟨c.P.toNat, (prime_toNat_cast hp).symm⟩
  have hqP := hq
  rw [hq] at h14 hls haP hf ⊢
  rw [hq, Int.toNat_natCast] at hp
  rw [Int.toNat_natCast] at hf
  haveI : Fact q.Prime := ⟨hp⟩
  have hq2 : q ≠ 2 := by rintro rfl; simp at h14
  obtain ⟨hscan, s0, hinit, hinv, hr⟩ := tonelliInit_spec q hq2 a hls fuel hf
  refine ⟨hscan, ⟨s0, hinit, ?_⟩, ?_⟩
  · intro s hs
    have hi := tsReach_inv hs hinv
    obtain ⟨M, hM, hMlt, _, _⟩ := tsInv_m_spec hi
    have h1 := hi.2.2.1
    have hnext : (s.next (q : Int)).r = s.m (q : Int) := rfl
    rw [hnext, hM]
    omega
  · obtain ⟨r, hS, _, _, h1, _⟩ := Sqrt_spec q hq2 c hqP a ha0.le haP fuel hf
    refine ⟨r, hS, ?_⟩
    rw [sq]; exact (h1 hls).1

/-- C7, at `P = 17` and `a = 2`. -/
theorem sqrt_tonelli_shanks_witness :
    (∃ n, scanNonResidue 17 17 2 = some n ∧ LegendreSymbol n 17 = -1) ∧
    (∃ s0, tonelliInit 17 17 2 = some s0 ∧
      ∀ s, TSReach 17 s0 s → 0 ≤ s.m 17 ∧ s.m 17 < s.r ∧ (s.next 17).r < s.r) ∧
    (∃ x, Sqrt 17 ⟨17, 9, 3, 1, 2, 5⟩ 2 = some x ∧ x ^ 2 % 17 = 2) :=
  sqrt_tonelli_shanks ⟨17, 9, 3, 1, 2, 5⟩ (by show Nat.Prime 17; norm_num) (by decide) 2
    (by decide) (by decide) (by decide) 17 (by decide)

/-- C4. The two accessors share the single guard `initonce`: from the initial state, `P112()`
followed by `P160()` hands back the 112-bit curve and then a nil pointer, and `P160()` followed
by `P112()` hands back the 160-bit curve and then a nil pointer. -/
theorem shared_once_second_accessor_nil :
    runCalls [Call.p112, Call.p160] PkgState.initial = [some curveP112, none] ∧
    runCalls [Call.p160, Call.p112] PkgState.initial = [some curveP160, none] := by
  constructor <;> rfl

/-- C10. On the empty byte sequence `DecompressPoint` panics at `cp[0]` (index out of range),
for every curve. -/
theorem decompress_empty_panics (fuel : Nat) (c : Curve) :
    DecompressPoint fuel c [] = Decompressed.indexPanic := rfl

/-- C9. On the curve `y² = x³ + 1` over `F_7` (one byte of x), the encoding `[0x02, 0x03]` of
`x = 3` has the root `y = 0` (`3³ + 1 = 28 ≡ 0`, so `(3, 0)` is on the curve), yet
`DecompressPoint` fails with the not-on-curve error, whatever the fuel. -/
theorem decompress_zero_root_rejected :
    IsOnCurve ⟨7, 3, 1, 0, 1, 3⟩ 3 0 = true ∧
    ((0 : Int) * 0 % 7 = (3 ^ 3 + 1) % 7) ∧
    ((([0x02, 0x03] : List Nat).length : Int) = 1 + byteLen ⟨7, 3, 1, 0, 1, 3⟩) ∧
    ∀ fuel, DecompressPoint fuel ⟨7, 3, 1, 0, 1, 3⟩ [0x02, 0x03] = Decompressed.notOnCurve := by
  refine ⟨by decide, by decide, by decide, fun fuel => ?_⟩
  rfl

/-- C1. `ScalarMult` panics where the scalar reaches the order of the point.  On the 112-bit
curve with its base point `G = (1, 2)` and `k` the 15 bytes of `N`: before the last bit the
doubled accumulator is `(1, P - 2) = -G`, the last `addJacobian` yields `Z = 0`, and
`affineFromJacobian` fails, so neither a point nor the sentinel is returned.  The same on
`y² = x³ + 4` over `F_7` with the point `(0, 2)` of order 3 (its double is `(0, 5) = -(0, 2)`)
and `k = [0x03]`. -/
theorem scalarMult_order_panics :
    IsOnCurve curveP112 curveP112.Gx curveP112.Gy = true ∧
    Bytes curveP112.N = [0x01, 0, 0, 0, 0, 0, 0, 0x01, 0xec, 0xea, 0x55, 0x1a, 0xd8, 0x37, 0xe9] ∧
    (let s := scalarByte curveP112 1 2 7 (scalarLoop curveP112 1 2 ⟨1, 2, 1, false⟩
        [0x01, 0, 0, 0, 0, 0, 0, 0x01, 0xec, 0xea, 0x55, 0x1a, 0xd8, 0x37]) 0xe9
      let d := doubleJacobian curveP112 s.x s.y s.z
      affineFromJacobian curveP112 d.1 d.2.1 d.2.2 = some (1, curveP112.P - 2) ∧
        (addJacobian curveP112 1 2 1 d.1 d.2.1 d.2.2).2.2 = 0) ∧
    (scalarLoop curveP112 1 2 ⟨1, 2, 1, false⟩ (Bytes curveP112.N)).z = 0 ∧
    ScalarMult curveP112 curveP112.Gx curveP112.Gy (Bytes curveP112.N) = none ∧
    ScalarBaseMult curveP112 (Bytes curveP112.N) = none ∧
    IsOnCurve ⟨7, 3, 4, 0, 2, 3⟩ 0 2 = true ∧
    Double ⟨7, 3, 4, 0, 2, 3⟩ 0 2 = some (0, 5) ∧
    ScalarMult ⟨7, 3, 4, 0, 2, 3⟩ 0 2 [0x03] = none := by
  refine ⟨by decide!, by decide!, by decide!, by decide!, by decide!, by decide!, by decide!,
    by decide!, by decide!⟩

/-! ## Compression and decompression -/

/-- The accumulator of `bytesLoop` is only appended to. -/
theorem bytesLoop_append : ∀ (fuel n : Nat) (acc : List Nat),
    bytesLoop fuel n acc = bytesLoop fuel n [] ++ acc := by
  intro fuel
  induction fuel with
  | zero => intro n acc; simp [bytesLoop]
  | succ k ih =>
    intro n acc
    unfold bytesLoop
    by_cases h : n = 0
    · simp [h]
    · rw [if_neg h, if_neg h, ih (n / 256) (n % 256 :: acc), ih (n / 256) [n % 256]]
      simp

/-- Reading the bytes of `n` back gives `n`. -/
theorem foldl_bytesLoop : ∀ (fuel n : Nat), n ≤ fuel →
    (bytesLoop fuel n []).foldl (fun acc b => acc * 256 + b % 256) 0 = n := by
  intro fuel
  induction fuel with
  | zero => intro n h; have : n = 0 := by omega
            subst this; simp [bytesLoop]
  | succ k ih =>
    intro n hn
    unfold bytesLoop
    by_cases h : n = 0
    · simp [h]
    · rw [if_neg h, bytesLoop_append, List.foldl_append, ih (n / 256) (by omega)]
      simp only [List.foldl_cons, List.foldl_nil]
      omega

/-- For a non-negative integer `SetBytes` undoes `Bytes`. -/
theorem SetBytes_Bytes (X : Int) (hX : 0 ≤ X) : SetBytes (Bytes X) = X := by
  unfold SetBytes Bytes
  rw [foldl_bytesLoop _ _ (le_refl _)]
  exact Int.natAbs_of_nonneg hX

/-- The three reductions of `DecompressPoint` compute `(X³ + B) mod P`. -/
theorem cube_emod (X B P : Int) : (X * X % P * X % P + B) % P = (X * X * X + B) % P := by
  have h1 : X * X % P * X % P = X * X * X % P := by
    rw [Int.mul_emod, Int.emod_emod_of_dvd _ (dvd_refl P), ← Int.mul_emod]
  rw [h1, Int.emod_add_emod]

/-- The body of `DecompressPoint` for a header `0x02` or `0x03`. -/
theorem DecompressPoint_cons (fuel : Nat) (c : Curve) (hd : Nat) (tl : List Nat)
    (hhd : hd = 0x03 ∨ hd = 0x02) :
    DecompressPoint fuel c (hd :: tl) =
      if ((tl.length : Int) + 1 ≠ 1 + byteLen c) then Decompressed.lengthMismatch
      else
        match Sqrt fuel c ((SetBytes tl * SetBytes tl * SetBytes tl + c.B) % c.P) with
        | none => Decompressed.outOfFuel
        | some Y =>
          if Y = 0 then Decompressed.notOnCurve
          else if (if hd = 0x03 then (1 : Int) else 0) ≠ Y % 2 then
            Decompressed.point (SetBytes tl) (c.P - Y)
          else Decompressed.point (SetBytes tl) Y := by
  unfold DecompressPoint
  simp only [hhd, if_true, cube_emod, List.length_cons, Nat.cast_add, Nat.cast_one]

/-- The square of a non-zero class has Legendre symbol `1`. -/
theorem legendre_of_sq (q : ℕ) [Fact q.Prime] (hq2 : q ≠ 2) (a Y : Int)
    (hY : (Y : ZMod q) ≠ 0) (ha : (a : ZMod q) = (Y : ZMod q) ^ 2) : LegendreSymbol a q = 1 := by
  rw [legendre_eq_one_iff q hq2]
  have ha0 : (a : ZMod q) ≠ 0 := by rw [ha]; exact pow_ne_zero _ hY
  exact ⟨ha0, (ZMod.euler_criterion q ha0).mp ⟨(Y : ZMod q), by rw [ha]; ring⟩⟩

/-- Two reduced values with equal squares modulo `q` are equal or add up to `q`. -/
theorem root_eq_or_neg (q : ℕ) [Fact q.Prime] (r Y : Int) (hr0 : 0 ≤ r) (hrq : r < q)
    (hY0 : 0 < Y) (hYq : Y < q) (h : (r : ZMod q) ^ 2 = (Y : ZMod q) ^ 2) :
    r = Y ∨ r = q - Y := by
  rcases sq_eq_sq_iff_eq_or_eq_neg.mp h with h1 | h1
  · left
    have := (ZMod.intCast_eq_intCast_iff' r Y q).mp h1
    rwa [Int.emod_eq_of_lt hr0 hrq, Int.emod_eq_of_lt hY0.le hYq] at this
  · right
    have h2 : (r : ZMod q) = (((q : Int) - Y : Int) : ZMod q) := by
      rw [h1]; push_cast; simp
    have := (ZMod.intCast_eq_intCast_iff' r _ q).mp h2
    rwa [Int.emod_eq_of_lt hr0 hrq, Int.emod_eq_of_lt (by omega) (by omega)] at this

/-- For an odd prime, `DecompressPoint` returns the root `Y` whose parity the header names. -/
theorem decompress_selects_root (q : ℕ) [Fact q.Prime] (hq2 : q ≠ 2) (c : Curve) (hc : c.P = q)
    (hd : Nat) (tl : List Nat) (hhd : hd = 0x03 ∨ hd = 0x02)
    (hlen : (tl.length : Int) = byteLen c) (Y : Int) (hY0 : 0 < Y) (hYq : Y < q)
    (hon : (SetBytes tl * SetBytes tl * SetBytes tl + c.B) % c.P = Y * Y % c.P)
    (hpar : (if hd = 0x03 then (1 : Int) else 0) = Y % 2)
    (fuel : Nat) (hf : q ≤ fuel) :
    DecompressPoint fuel c (hd :: tl) = Decompressed.point (SetBytes tl) Y := by
  have hq := (Fact.out : q.Prime)
  have hqpos : (0 : Int) < q := by exact_mod_cast hq.pos
  have hqodd : (q : Int) % 2 = 1 := by
    have := hq.eq_two_or_odd
    omega
  rw [DecompressPoint_cons fuel c hd tl hhd]
  rw [if_neg (by rw [hlen]; simp [add_comm])]
  rw [hon, hc]
  have hYc : (Y : ZMod q) ≠ 0 := by
    intro h
    have := (cast_eq_zero_iff q Y).mpr h
    rw [Int.emod_eq_of_lt hY0.le hYq] at this
    omega
  have hacast : ((Y * Y % (q : Int) : Int) : ZMod q) = (Y : ZMod q) ^ 2 := by
    rw [cast_emod]; push_cast; ring
  have hls := legendre_of_sq q hq2 (Y * Y % (q : Int)) Y hYc hacast
  obtain ⟨r, hS, hr0, hrq, h1, _⟩ := Sqrt_spec q hq2 c hc (Y * Y % (q : Int))
    (Int.emod_nonneg _ hqpos.ne') (Int.emod_lt_of_pos _ hqpos) fuel hf
  obtain ⟨hsq, hrne⟩ := h1 hls
  have hrsq : (r : ZMod q) ^ 2 = (Y : ZMod q) ^ 2 := by
    rw [← hacast, ← hsq, cast_emod]; push_cast; ring
  rw [hS]
  simp only [if_neg hrne]
  rcases root_eq_or_neg q r Y hr0 hrq hY0 hYq hrsq with h | h
  · subst h
    rw [if_neg (by rw [hpar]; simp)]
  · have hne : (if hd = 0x03 then (1 : Int) else 0) ≠ r % 2 := by
      rw [hpar, h]; omega
    rw [if_pos hne, h]
    congr 1
    ring

/-- For an odd prime and an encoding of the required length, `DecompressPoint` fails with the
not-on-curve error unless `X³ + B` has Legendre symbol `1`, and then returns a root of the
parity that the header names. -/
theorem decompress_outcome (q : ℕ) [Fact q.Prime] (hq2 : q ≠ 2) (c : Curve) (hc : c.P = q)
    (hd : Nat) (tl : List Nat) (hhd : hd = 0x03 ∨ hd = 0x02)
    (hlen : (tl.length : Int) = byteLen c) (fuel : Nat) (hf : q ≤ fuel) :
    (LegendreSymbol ((SetBytes tl * SetBytes tl * SetBytes tl + c.B) % c.P) c.P ≠ 1 →
      DecompressPoint fuel c (hd :: tl) = Decompressed.notOnCurve) ∧
    (LegendreSymbol ((SetBytes tl * SetBytes tl * SetBytes tl + c.B) % c.P) c.P = 1 →
      ∃ Y, DecompressPoint fuel c (hd :: tl) = Decompressed.point (SetBytes tl) Y ∧
        0 < Y ∧ Y < c.P ∧ Y * Y % c.P = (SetBytes tl * SetBytes tl * SetBytes tl + c.B) % c.P ∧
        Y % 2 = (if hd = 0x03 then (1 : Int) else 0)) := by
  have hq := (Fact.out : q.Prime)
  have hqpos : (0 : Int) < q := by exact_mod_cast hq.pos
  have hqodd : (q : Int) % 2 = 1 := by
    have := hq.eq_two_or_odd
    omega
  rw [DecompressPoint_cons fuel c hd tl hhd]
  rw [if_neg (by rw [hlen]; simp [add_comm])]
  rw [hc]
  obtain ⟨r, hS, hr0, hrq, h1, h2⟩ := Sqrt_spec q hq2 c hc
    ((SetBytes tl * SetBytes tl * SetBytes tl + c.B) % (q : Int))
    (Int.emod_nonneg _ hqpos.ne') (Int.emod_lt_of_pos _ hqpos) fuel hf
  rw [hS]
  constructor
  · intro hls
    simp [h2 hls]
  · intro hls
    obtain ⟨hsq, hrne⟩ := h1 hls
    simp only [if_neg hrne]
    have hrpos : 0 < r := lt_of_le_of_ne hr0 (Ne.symm hrne)
    by_cases hpar : (if hd = 0x03 then (1 : Int) else 0) ≠ r % 2
    · rw [if_pos hpar]
      refine ⟨(q : Int) - r, rfl, by omega, by omega, ?_, ?_⟩
      · rw [← hsq]
        have : ((q : Int) - r) * ((q : Int) - r) = r * r + (q : Int) * ((q : Int) - 2 * r) := by
          ring
        rw [this, Int.add_mul_emod_self_left]
      · have hcase : (if hd = 0x03 then (1 : Int) else 0) = 0 ∨
            (if hd = 0x03 then (1 : Int) else 0) = 1 := by
          by_cases h : hd = 0x03 <;> simp [h]
        omega
    · rw [if_neg hpar]
      push_neg at hpar
      exact ⟨r, rfl, hrpos, hrq, hsq, hpar.symm⟩

/-- The result of `DecompressPoint` for any other header. -/
theorem DecompressPoint_other (fuel : Nat) (c : Curve) (hd : Nat) (tl : List Nat)
    (hhd : ¬ (hd = 0x03 ∨ hd = 0x02)) :
    DecompressPoint fuel c (hd :: tl)
      = if hd = 0x04 then Decompressed.unmarshal else Decompressed.invalidHeader := by
  simp only [DecompressPoint, hhd, if_false]

/-- For an odd prime and enough fuel a non-empty input never panics and never runs out of
fuel. -/
theorem decompress_nonempty_returns (c : Curve) (hp : Nat.Prime c.P.toNat) (hodd : c.P % 2 = 1)
    (hd : Nat) (tl : List Nat) (fuel : Nat) (hf : c.P.toNat ≤ fuel) :
    DecompressPoint fuel c (hd :: tl) ≠ Decompressed.indexPanic ∧
    DecompressPoint fuel c (hd :: tl) ≠ Decompressed.outOfFuel := by
  obtain ⟨q, hq⟩ : ∃ q : ℕ, c.P = (q : Int) := ⟨c.P.toNat, (prime_toNat_cast hp).symm⟩
  rw [hq] at hodd
  rw [hq, Int.toNat_natCast] at hp hf
  haveI : Fact q.Prime := ⟨hp⟩
  have hq2 : q ≠ 2 := by rintro rfl; simp at hodd
  by_cases hhd : hd = 0x03 ∨ hd = 0x02
  · by_cases hlen : (tl.length : Int) = byteLen c
    · obtain ⟨h1, h2⟩ := decompress_outcome q hq2 c hq hd tl hhd hlen fuel hf
      by_cases hls :
          LegendreSymbol ((SetBytes tl * SetBytes tl * SetBytes tl + c.B) % c.P) c.P = 1
      · obtain ⟨Y, hY, _⟩ := h2 hls
        rw [hY]; simp
      · rw [h1 hls]; simp
    · rw [DecompressPoint_cons fuel c hd tl hhd, if_pos (by intro h; apply hlen; linarith)]
      simp
  · rw [DecompressPoint_other fuel c hd tl hhd]
    by_cases h4 : hd = 0x04 <;> simp [h4]

/-- On the 112-bit curve the two bytes `[0x02, 0x01]` fail the length check. -/
theorem decompress_short_p112 (fuel : Nat) :
    DecompressPoint fuel curveP112 [0x02, 0x01] = Decompressed.lengthMismatch := by
  rw [DecompressPoint_cons fuel curveP112 2 [1] (Or.inr rfl), if_pos (by decide!)]

/-- Over `F_2` the header `0x03` with `X³ + B` odd decodes to `y = 1`. -/
theorem decompress_char_two (c : Curve) (hc : c.P = 2) (tl : List Nat)
    (hlen : (tl.length : Int) = byteLen c)
    (hon : (SetBytes tl * SetBytes tl * SetBytes tl + c.B) % c.P = 1) (fuel : Nat) :
    DecompressPoint fuel c (3 :: tl) = Decompressed.point (SetBytes tl) 1 := by
  rw [DecompressPoint_cons fuel c 3 tl (Or.inl rfl)]
  rw [if_neg (by rw [hlen]; simp [add_comm]), hon]
  have hS : Sqrt fuel c 1 = some 1 := by
    unfold Sqrt
    simp [hc]
  rw [hS]
  simp

/-- C2 (amended). For a curve with prime `P`, an on-curve point `(X, Y)` with `0 ≤ X < P` and
`0 < Y < P`, and fuel at least `P`: if the minimal big-endian encoding of `X` has exactly
`byteLen` bytes, `DecompressPoint(CompressPoint(X, Y))` is exactly `(X, Y)`; if it has another
length, the result is the length error.  On the 112-bit curve `CompressPoint(1, 2)` is
`[0x02, 0x01]`, which `DecompressPoint` rejects with the length error. -/
theorem decompress_compress_roundtrip (c : Curve) (hp : Nat.Prime c.P.toNat)
    (X Y : Int) (hX0 : 0 ≤ X) (_hXP : X < c.P) (hY0 : 0 < Y) (hYP : Y < c.P)
    (hon : IsOnCurve c X Y = true) (fuel : Nat) (hf : c.P.toNat ≤ fuel) :
    (((Bytes X).length : Int) = byteLen c →
      DecompressPoint fuel c (CompressPoint c X Y) = Decompressed.point X Y) ∧
    (((Bytes X).length : Int) ≠ byteLen c →
      DecompressPoint fuel c (CompressPoint c X Y) = Decompressed.lengthMismatch) ∧
    CompressPoint curveP112 1 2 = [0x02, 0x01] ∧
    DecompressPoint fuel curveP112 [0x02, 0x01] = Decompressed.lengthMismatch := by
  have hcomp : CompressPoint c X Y = (if Y % 2 = 1 then 3 else 2) :: Bytes X := rfl
  have hhd : (if Y % 2 = 1 then 3 else 2 : Nat) = 0x03 ∨ (if Y % 2 = 1 then 3 else 2 : Nat) = 0x02 := by
    by_cases h : Y % 2 = 1 <;> simp [h]
  have hon1 : (X * X * X + c.B) % c.P = Y * Y % c.P := by
    simpa [IsOnCurve] using hon
  refine ⟨fun hlen => ?_, fun hlen => ?_, by decide, decompress_short_p112 fuel⟩
  · obtain ⟨q, hq⟩ : ∃ q : ℕ, c.P = (q : Int) := ⟨c.P.toNat, (prime_toNat_cast hp).symm⟩
    rw [hq] at hYP
    rw [hq, Int.toNat_natCast] at hp hf
    haveI : Fact q.Prime := ⟨hp⟩
    by_cases hq2 : q = 2
    · subst hq2
      have hY1 : Y = 1 := by push_cast at hYP; omega
      subst hY1
      have hP2 : c.P = 2 := by rw [hq]; rfl
      have := decompress_char_two c hP2 (Bytes X) hlen
        (by rw [SetBytes_Bytes X hX0, hon1, hP2]; rfl) fuel
      rw [hcomp, SetBytes_Bytes X hX0] at *
      simpa using this
    · have hpar : (if (if Y % 2 = 1 then 3 else 2 : Nat) = 0x03 then (1 : Int) else 0) = Y % 2 := by
        by_cases h : Y % 2 = 1
        · simp [h]
        · simp [h]; omega
      have := decompress_selects_root q hq2 c hq _ (Bytes X) hhd hlen Y hY0 hYP
        (by rw [SetBytes_Bytes X hX0]; exact hon1) hpar fuel hf
      rw [hcomp, this, SetBytes_Bytes X hX0]
  · rw [hcomp, DecompressPoint_cons fuel c _ _ hhd, if_pos]
    intro h
    apply hlen
    linarith

/-- C2 (amended), at the point `(1, 2)` of `y² = x³ + 3` over `F_7`, one byte of `x`. -/
theorem decompress_compress_roundtrip_witness :
    IsOnCurve ⟨7, 13, 3, 1, 2, 3⟩ 1 2 = true ∧
    ((Bytes 1).length : Int) = byteLen ⟨7, 13, 3, 1, 2, 3⟩ ∧
    DecompressPoint 7 ⟨7, 13, 3, 1, 2, 3⟩ (CompressPoint ⟨7, 13, 3, 1, 2, 3⟩ 1 2)
      = Decompressed.point 1 2 :=
  ⟨by decide, by decide,
    (decompress_compress_roundtrip ⟨7, 13, 3, 1, 2, 3⟩ (by show Nat.Prime 7; norm_num)
      1 2 (by decide) (by decide) (by decide) (by decide) (by decide) 7 (by decide)).1
      (by decide)⟩

/-- C2 (counterexample). On the 112-bit curve the base point `(1, 2)` is on the curve with
coordinates in `[0, P)`; `CompressPoint(1, 2)` is `[0x02, 0x01]`, and `DecompressPoint` of it is
the length error (2 bytes, 15 required), for every fuel: it is not `(1, 2)`. -/
theorem roundtrip_fails_on_base_point :
    IsOnCurve curveP112 1 2 = true ∧ (0 : Int) ≤ 1 ∧ 1 < curveP112.P ∧ (0 : Int) ≤ 2 ∧
    2 < curveP112.P ∧ CompressPoint curveP112 1 2 = [0x02, 0x01] ∧
    1 + byteLen curveP112 = 15 ∧
    ¬ ∃ fuel, DecompressPoint fuel curveP112 (CompressPoint curveP112 1 2)
        = Decompressed.point 1 2 := by
  refine ⟨by decide!, by decide!, by decide!, by decide!, by decide!, by decide!, by decide!, ?_⟩
  rintro ⟨fuel, h⟩
  have : DecompressPoint fuel curveP112 (CompressPoint curveP112 1 2)
      = Decompressed.lengthMismatch := decompress_short_p112 fuel
  rw [this] at h
  exact absurd h (by decide)

/-! ## Error results of decompression, the compressed form, zero scalars, fixed parameters -/

/-- C12. For every curve and every non-empty `cp` whose first byte is none of `0x02`, `0x03`,
`0x04`, `DecompressPoint` fails with the invalid-header error and returns no point, whatever the
remaining bytes, their number and the fuel. -/
theorem decompress_invalid_header (fuel : Nat) (c : Curve) (hd : Nat) (tl : List Nat)
    (h2 : hd ≠ 0x02) (h3 : hd ≠ 0x03) (h4 : hd ≠ 0x04) :
    DecompressPoint fuel c (hd :: tl) = Decompressed.invalidHeader ∧
    ∀ X Y, DecompressPoint fuel c (hd :: tl) ≠ Decompressed.point X Y := by
  have h : DecompressPoint fuel c (hd :: tl) = Decompressed.invalidHeader := by
    rw [DecompressPoint_other fuel c hd tl (by rintro (h | h); exact h3 h; exact h2 h), if_neg h4]
  refine ⟨h, fun X Y => ?_⟩
  rw [h]; simp

/-- C12, at the header `0x05` on the 112-bit curve. -/
theorem decompress_invalid_header_witness :
    DecompressPoint 0 curveP112 [0x05, 0x01] = Decompressed.invalidHeader ∧
    ∀ X Y, DecompressPoint 0 curveP112 [0x05, 0x01] ≠ Decompressed.point X Y :=
  decompress_invalid_header 0 curveP112 0x05 [0x01] (by decide) (by decide) (by decide)

/-- A pass of `ScalarMult` on a zero byte before any set bit leaves the loop variables alone. -/
theorem scalarStep_zero (c : Curve) (Bx By : Int) (s : Acc) (hs : s.seenFirstTrue = false) :
    scalarStep c Bx By s 0 = s := by
  cases s with
  | mk x y z seen =>
    simp only at hs
    subst hs
    simp [scalarStep]

/-- The inner loop on a zero byte before any set bit leaves the loop variables alone. -/
theorem scalarByte_zero (c : Curve) (Bx By : Int) : ∀ (n : Nat) (s : Acc),
    s.seenFirstTrue = false → scalarByte c Bx By n s 0 = s := by
  intro n
  induction n with
  | zero => intro s _; rfl
  | succ n ih =>
    intro s hs
    unfold scalarByte
    rw [scalarStep_zero c Bx By s hs]
    exact ih s hs

/-- The outer loop over zero bytes leaves the initial loop variables alone. -/
theorem scalarLoop_zero (c : Curve) (Bx By : Int) : ∀ (k : List Nat) (s : Acc),
    s.seenFirstTrue = false → (∀ b ∈ k, b = 0) → scalarLoop c Bx By s k = s := by
  intro k
  induction k with
  | nil => intro s _ _; rfl
  | cons b k ih =>
    intro s hs hk
    have hb : b = 0 := hk b (List.mem_cons_self _ _)
    subst hb
    unfold scalarLoop
    rw [show (0 : Nat) % 256 = 0 from rfl, scalarByte_zero c Bx By 8 s hs]
    exact ih s hs (fun b hb => hk b (List.mem_cons_of_mem _ hb))

/-- C14. For every curve, every pair `(Bx, By)` and every `k` all of whose bytes are zero,
`ScalarMult` and `ScalarBaseMult` return the point-at-infinity sentinel (not a panic); so do the
empty sequence and `[0x00]`. -/
theorem scalarMult_zero_scalar (c : Curve) (Bx By : Int) (k : List Nat) (hk : ∀ b ∈ k, b = 0) :
    ScalarMult c Bx By k = some Point.infinity ∧ ScalarBaseMult c k = some Point.infinity ∧
    ScalarMult c Bx By [] = some Point.infinity ∧
    ScalarMult c Bx By [0x00] = some Point.infinity := by
  have key : ∀ (x y : Int) (l : List Nat), (∀ b ∈ l, b = 0) →
      ScalarMult c x y l = some Point.infinity := by
    intro x y l hl
    unfold ScalarMult
    rw [scalarLoop_zero c x y l ⟨x, y, 1, false⟩ rfl hl]
    rfl
  exact ⟨key Bx By k hk, key c.Gx c.Gy k hk, key Bx By [] (by simp), key Bx By [0] (by simp)⟩

/-- C14, at three zero bytes on the 112-bit curve. -/
theorem scalarMult_zero_scalar_witness :
    ScalarMult curveP112 1 2 [0, 0, 0] = some Point.infinity ∧
    ScalarBaseMult curveP112 [0, 0, 0] = some Point.infinity ∧
    ScalarMult curveP112 1 2 [] = some Point.infinity ∧
    ScalarMult curveP112 1 2 [0x00] = some Point.infinity :=
  scalarMult_zero_scalar curveP112 1 2 [0, 0, 0] (by decide)

/-- The bit length of `n` is `k + 1` when `2 ^ k ≤ n < 2 ^ (k + 1)`. -/
theorem size_eq_of_bounds (n k : Nat) (h1 : 2 ^ k ≤ n) (h2 : n < 2 ^ (k + 1)) :
    Nat.size n = k + 1 :=
  le_antisymm (Nat.size_le.mpr h2) (Nat.lt_size.mpr h1)

/-- C15. For both fixed parameter sets `B`, `Gx` and `Gy` lie in `[0, P)`, `IsOnCurve(Gx, Gy)`
is true (`1³ + 3 = 4 = 2²`), and `BitSize` is the bit length of `P` (112 and 160). -/
theorem fixed_parameters_invariant :
    (0 ≤ curveP112.B ∧ curveP112.B < curveP112.P) ∧
    (0 ≤ curveP112.Gx ∧ curveP112.Gx < curveP112.P) ∧
    (0 ≤ curveP112.Gy ∧ curveP112.Gy < curveP112.P) ∧
    IsOnCurve curveP112 curveP112.Gx curveP112.Gy = true ∧
    (1 : Int) ^ 3 + 3 = 4 ∧ (4 : Int) = 2 ^ 2 ∧
    curveP112.BitSize = 112 ∧ (Nat.size curveP112.P.toNat : Int) = curveP112.BitSize ∧
    (0 ≤ curveP160.B ∧ curveP160.B < curveP160.P) ∧
    (0 ≤ curveP160.Gx ∧ curveP160.Gx < curveP160.P) ∧
    (0 ≤ curveP160.Gy ∧ curveP160.Gy < curveP160.P) ∧
    IsOnCurve curveP160 curveP160.Gx curveP160.Gy = true ∧
    curveP160.BitSize = 160 ∧ (Nat.size curveP160.P.toNat : Int) = curveP160.BitSize := by
  have s112 : Nat.size curveP112.P.toNat = 112 :=
    size_eq_of_bounds _ 111 (by decide!) (by decide!)
  have s160 : Nat.size curveP160.P.toNat = 160 :=
    size_eq_of_bounds _ 159 (by decide!) (by decide!)
  refine ⟨by decide!, by decide!, by decide!, by decide!, by decide, by decide, rfl, ?_,
    by decide!, by decide!, by decide!, by decide!, rfl, ?_⟩
  · rw [s112]; rfl
  · rw [s160]; rfl

/-- One pass of `bytesLoop` appends the lowest byte. -/
theorem bytesLoop_succ (fuel n : Nat) (hn : n ≠ 0) :
    bytesLoop (fuel + 1) n [] = bytesLoop fuel (n / 256) [] ++ [n % 256] := by
  conv_lhs => unfold bytesLoop
  rw [if_neg hn, bytesLoop_append]

/-- No byte is produced for `0`. -/
theorem bytesLoop_zero_arg (fuel : Nat) : bytesLoop fuel 0 [] = [] := by
  cases fuel <;> simp [bytesLoop]

/-- The bytes of `n` are below 256; for `n > 0` there are exactly as many as base-256 digits and
the first is not zero. -/
theorem bytesLoop_spec : ∀ (fuel n : Nat), n ≤ fuel →
    (∀ b ∈ bytesLoop fuel n [], b < 256) ∧
    (0 < n → 256 ^ ((bytesLoop fuel n []).length - 1) ≤ n ∧
      n < 256 ^ (bytesLoop fuel n []).length ∧ 0 < (bytesLoop fuel n []).length ∧
      (bytesLoop fuel n []).head? ≠ some 0) := by
  intro fuel
  induction fuel with
  | zero =>
    intro n hn
    have : n = 0 := by omega
    subst this
    simp [bytesLoop]
  | succ k ih =>
    intro n hn
    rcases Nat.eq_zero_or_pos n with h0 | hpos
    · subst h0; simp [bytesLoop]
    · rw [bytesLoop_succ k n (by omega)]
      obtain ⟨ih1, ih2⟩ := ih (n / 256) (by omega)
      refine ⟨?_, fun _ => ?_⟩
      · intro b hb
        rcases List.mem_append.mp hb with h | h
        · exact ih1 b h
        · have : b = n % 256 := by simpa using h
          omega
      · rcases Nat.eq_zero_or_pos (n / 256) with hz | hq
        · rw [hz, bytesLoop_zero_arg]
          have hlt : n < 256 := by omega
          have hmod : n % 256 = n := Nat.mod_eq_of_lt hlt
          simp only [List.nil_append, List.length_singleton, List.head?_cons, hmod]
          refine ⟨by simpa using hpos, by simpa using hlt, by omega, ?_⟩
          intro h
          have : n = 0 := by simpa using h
          omega
        · obtain ⟨a1, a2, a3, a4⟩ := ih2 hq
          have hlen : (bytesLoop k (n / 256) [] ++ [n % 256]).length
              = (bytesLoop k (n / 256) []).length + 1 := by simp
          rw [hlen]
          refine ⟨?_, ?_, by omega, ?_⟩
          · have e : (bytesLoop k (n / 256) []).length + 1 - 1
                = ((bytesLoop k (n / 256) []).length - 1) + 1 := by omega
            rw [e, pow_succ]
            have := Nat.mul_le_mul_right 256 a1
            have h2 := Nat.div_mul_le_self n 256
            omega
          · rw [pow_succ]
            have := (Nat.div_lt_iff_lt_mul (by norm_num : 0 < 256)).mp a2
            exact this
          · cases hl : bytesLoop k (n / 256) [] with
            | nil => rw [hl] at a3; simp at a3
            | cons x xs =>
              rw [hl] at a4
              simpa using a4

/-- The number of bytes of `X ≥ 0` is `⌈bitlen(X) / 8⌉`. -/
theorem length_Bytes (X : Int) (hX : 0 ≤ X) :
    (Bytes X).length = (Nat.size X.toNat + 7) / 8 := by
  unfold Bytes
  have hX' : X.natAbs = X.toNat := by omega
  rw [hX']
  rcases Nat.eq_zero_or_pos X.toNat with h0 | hpos
  · rw [h0, bytesLoop_zero_arg]; simp
  · obtain ⟨_, h2⟩ := bytesLoop_spec X.toNat X.toNat (le_refl _)
    obtain ⟨a1, a2, a3, _⟩ := h2 hpos
    set L := (bytesLoop X.toNat X.toNat []).length with hL
    have e1 : (256 : Nat) ^ L = 2 ^ (8 * L) := by
      rw [pow_mul]; norm_num
    have e2 : (256 : Nat) ^ (L - 1) = 2 ^ (8 * (L - 1)) := by
      rw [pow_mul]; norm_num
    rw [e1] at a2
    rw [e2] at a1
    have s1 : Nat.size X.toNat ≤ 8 * L := Nat.size_le.mpr a2
    have s2 : 8 * (L - 1) < Nat.size X.toNat := Nat.lt_size.mpr a1
    omega

/-- C13. For `X ≥ 0` and `Y ≥ 0` and every curve, `CompressPoint(X, Y)` is the byte `0x03` for
odd `Y` and `0x02` for even `Y`, followed by the minimal big-endian bytes of `X` (bytes below
256 that read back as `X`, no leading zero byte, none for `X = 0`); its length is
`1 + ⌈bitlen(X) / 8⌉`, it does not depend on the curve, the package-level function returns the
same bytes, and `CompressPoint(1, 2)` on the 112-bit curve is `[0x02, 0x01]`. -/
theorem compressPoint_spec (c : Curve) (X Y : Int) (hX : 0 ≤ X) (_hY : 0 ≤ Y) :
    CompressPoint c X Y = (if Y % 2 = 1 then 0x03 else 0x02) :: Bytes X ∧
    (∀ b ∈ Bytes X, b < 256) ∧ SetBytes (Bytes X) = X ∧ (Bytes X).head? ≠ some 0 ∧
    (X = 0 → Bytes X = []) ∧
    (CompressPoint c X Y).length = 1 + (Nat.size X.toNat + 7) / 8 ∧
    (∀ c2 : Curve, CompressPoint c2 X Y = CompressPoint c X Y) ∧
    CompressPointPkg c X Y = CompressPoint c X Y ∧
    CompressPoint curveP112 1 2 = [0x02, 0x01] := by
  have hX' : X.natAbs = X.toNat := by omega
  have hcomp : CompressPoint c X Y = (if Y % 2 = 1 then 0x03 else 0x02) :: Bytes X := rfl
  have hspec := bytesLoop_spec X.toNat X.toNat (le_refl _)
  refine ⟨hcomp, ?_, SetBytes_Bytes X hX, ?_, ?_, ?_, fun _ => rfl, rfl, by decide⟩
  · unfold Bytes; rw [hX']; exact hspec.1
  · unfold Bytes; rw [hX']
    rcases Nat.eq_zero_or_pos X.toNat with h0 | hpos
    · rw [h0, bytesLoop_zero_arg]; simp
    · exact (hspec.2 hpos).2.2.2
  · rintro rfl; rfl
  · rw [hcomp, List.length_cons, length_Bytes X hX]; omega

/-- C13, at the point `(1, 2)` on the 112-bit curve. -/
theorem compressPoint_spec_witness :
    CompressPoint curveP112 1 2 = (if (2 : Int) % 2 = 1 then 0x03 else 0x02) :: Bytes 1 ∧
    (∀ b ∈ Bytes 1, b < 256) ∧ SetBytes (Bytes 1) = 1 ∧ (Bytes 1).head? ≠ some 0 ∧
    ((1 : Int) = 0 → Bytes 1 = []) ∧
    (CompressPoint curveP112 1 2).length = 1 + (Nat.size (1 : Int).toNat + 7) / 8 ∧
    (∀ c2 : Curve, CompressPoint c2 1 2 = CompressPoint curveP112 1 2) ∧
    CompressPointPkg curveP112 1 2 = CompressPoint curveP112 1 2 ∧
    CompressPoint curveP112 1 2 = [0x02, 0x01] :=
  compressPoint_spec curveP112 1 2 (by decide) (by decide)

/-- The shift `(n + 7) >> 3` is `⌈n / 8⌉`. -/
theorem ceil_div_eight (n : Int) : ⌈(n : ℚ) / 8⌉ = (n + 7) / 8 := by
  rw [Int.ceil_eq_iff]
  have h1 : 8 * ((n + 7) / 8) ≤ n + 7 := by omega
  have h2 : n + 7 < 8 * ((n + 7) / 8) + 8 := by omega
  have h1q : (8 : ℚ) * (((n + 7) / 8 : Int) : ℚ) ≤ (n : ℚ) + 7 := by exact_mod_cast h1
  have h2q : (n : ℚ) + 7 < 8 * (((n + 7) / 8 : Int) : ℚ) + 8 := by exact_mod_cast h2
  have h2i : n ≤ 8 * ((n + 7) / 8) := by omega
  have h3q : (n : ℚ) ≤ 8 * (((n + 7) / 8 : Int) : ℚ) := by exact_mod_cast h2i
  constructor
  · rw [lt_div_iff₀ (by norm_num : (0 : ℚ) < 8)]; linarith
  · rw [div_le_iff₀ (by norm_num : (0 : ℚ) < 8)]; linarith

/-- For a 64-bit `BitSize` and a length below `2 ^ 60`, the length test of `DecompressPoint`
compares with `1 + ⌈BitSize / 8⌉` (an overflow of `BitSize + 7` makes both sides fail). -/
theorem length_eq_byteLen_iff (c : Curve) (hB1 : -2 ^ 63 ≤ c.BitSize) (hB2 : c.BitSize < 2 ^ 63)
    (n : Int) (hn0 : 0 ≤ n) (hn : n < 2 ^ 60) :
    n = 1 + byteLen c ↔ n = 1 + ⌈(c.BitSize : ℚ) / 8⌉ := by
  rw [ceil_div_eight]
  unfold byteLen wrapInt64
  norm_num at *
  omega

/-- C11. For every curve (`BitSize` a 64-bit `int`) and every non-empty `cp` (of a length that
fits in memory) whose first byte is `0x02` or `0x03`: `DecompressPoint` fails with the length
error exactly when `len(cp) ≠ 1 + ⌈BitSize / 8⌉`; whether it does depends on `BitSize` and the
length only, not on the x bytes, the modulus or the fuel; the required length is 15 on the
112-bit curve and 21 on the 160-bit curve. -/
theorem decompress_length_error_iff (fuel : Nat) (c : Curve) (hd : Nat) (tl : List Nat)
    (hhd : hd = 0x02 ∨ hd = 0x03) (hB1 : -2 ^ 63 ≤ c.BitSize) (hB2 : c.BitSize < 2 ^ 63)
    (hfit : ((hd :: tl).length : Int) < 2 ^ 60) :
    (DecompressPoint fuel c (hd :: tl) = Decompressed.lengthMismatch ↔
      ((hd :: tl).length : Int) ≠ 1 + ⌈(c.BitSize : ℚ) / 8⌉) ∧
    (∀ (fuel2 : Nat) (c2 : Curve) (tl2 : List Nat),
      c2.BitSize = c.BitSize → tl2.length = tl.length →
      (DecompressPoint fuel2 c2 (hd :: tl2) = Decompressed.lengthMismatch ↔
        DecompressPoint fuel c (hd :: tl) = Decompressed.lengthMismatch)) ∧
    (DecompressPoint fuel curveP112 (hd :: tl) = Decompressed.lengthMismatch ↔
      (hd :: tl).length ≠ 15) ∧
    (DecompressPoint fuel curveP160 (hd :: tl) = Decompressed.lengthMismatch ↔
      (hd :: tl).length ≠ 21) := by
  have hhd' : hd = 0x03 ∨ hd = 0x02 := hhd.symm
  have key : ∀ (f : Nat) (c1 : Curve) (l : List Nat),
      DecompressPoint f c1 (hd :: l) = Decompressed.lengthMismatch ↔
        ((hd :: l).length : Int) ≠ 1 + byteLen c1 := by
    intro f c1 l
    rw [DecompressPoint_cons f c1 hd l hhd']
    have e : ((hd :: l).length : Int) = (l.length : Int) + 1 := by simp
    rw [e]
    by_cases h : (l.length : Int) + 1 ≠ 1 + byteLen c1
    · simp [h]
    · rw [if_neg h]
      simp only [h, iff_false]
      cases Sqrt f c1 ((SetBytes l * SetBytes l * SetBytes l + c1.B) % c1.P) with
      | none => simp
      | some Y =>
        simp only
        split_ifs <;> simp
  refine ⟨?_, ?_, ?_, ?_⟩
  · rw [key, not_iff_not]
    exact length_eq_byteLen_iff c hB1 hB2 _ (by positivity) hfit
  · intro fuel2 c2 tl2 hc2 hl2
    rw [key, key]
    have e1 : byteLen c2 = byteLen c := by unfold byteLen; rw [hc2]
    simp only [List.length_cons, hl2, e1]
  · rw [key]
    have : 1 + byteLen curveP112 = 15 := by decide!
    rw [this]
    constructor <;> intro h h' <;> exact h (by omega)
  · rw [key]
    have : 1 + byteLen curveP160 = 21 := by decide!
    rw [this]
    constructor <;> intro h h' <;> exact h (by omega)

/-- C11, at the two bytes `[0x02, 0x01]` on the 112-bit curve. -/
theorem decompress_length_error_iff_witness :
    (DecompressPoint 0 curveP112 [0x02, 0x01] = Decompressed.lengthMismatch ↔
      (([0x02, 0x01] : List Nat).length : Int) ≠ 1 + ⌈(curveP112.BitSize : ℚ) / 8⌉) ∧
    (∀ (fuel2 : Nat) (c2 : Curve) (tl2 : List Nat),
      c2.BitSize = curveP112.BitSize → tl2.length = ([0x01] : List Nat).length →
      (DecompressPoint fuel2 c2 (0x02 :: tl2) = Decompressed.lengthMismatch ↔
        DecompressPoint 0 curveP112 [0x02, 0x01] = Decompressed.lengthMismatch)) ∧
    (DecompressPoint 0 curveP112 [0x02, 0x01] = Decompressed.lengthMismatch ↔
      ([0x02, 0x01] : List Nat).length ≠ 15) ∧
    (DecompressPoint 0 curveP160 [0x02, 0x01] = Decompressed.lengthMismatch ↔
      ([0x02, 0x01] : List Nat).length ≠ 21) :=
  decompress_length_error_iff 0 curveP112 0x02 [0x01] (Or.inl rfl) (by decide) (by decide)
    (by decide)

/-! ## What decompression returns -/

/-- For `P ≡ 3 (mod 4)` no loop of `Sqrt` is reached: the fuel does not matter. -/
theorem Sqrt_fuel_irrelevant (c : Curve) (h34 : c.P % 4 = 3) (a : Int) (fuel fuel2 : Nat) :
    Sqrt fuel c a = Sqrt fuel2 c a := by
  unfold Sqrt
  simp only [h34, if_true]

/-- For `P ≡ 3 (mod 4)` the fuel does not matter to `DecompressPoint`. -/
theorem DecompressPoint_fuel_irrelevant (c : Curve) (h34 : c.P % 4 = 3) (cp : List Nat)
    (fuel fuel2 : Nat) : DecompressPoint fuel c cp = DecompressPoint fuel2 c cp := by
  cases cp with
  | nil => rfl
  | cons hd tl =>
    unfold DecompressPoint
    simp only [Sqrt_fuel_irrelevant c h34 _ fuel fuel2]

/-- A non-zero quadratic residue has Legendre symbol `1`. -/
theorem legendre_of_residue (q : ℕ) [Fact q.Prime] (hq2 : q ≠ 2) (a : Int)
    (hqr : ∃ y : Int, y * y % (q : Int) = a % (q : Int)) (hnz : a % (q : Int) ≠ 0) :
    LegendreSymbol (a % (q : Int)) q = 1 := by
  rw [legendre_eq_one_iff q hq2, cast_emod]
  have ha0 : (a : ZMod q) ≠ 0 := fun h => hnz ((cast_eq_zero_iff q a).mpr h)
  exact ⟨ha0, (ZMod.euler_criterion q ha0).mp ((exists_sq_iff_isSquare q a).mp hqr)⟩

/-- When some length below `2 ^ 60` equals `1 + ⌈BitSize / 8⌉`, `BitSize + 7` does not overflow
and `byteLen` is `⌈BitSize / 8⌉`. -/
theorem byteLen_of_fit (c : Curve) (hB1 : -2 ^ 63 ≤ c.BitSize) (hB2 : c.BitSize < 2 ^ 63)
    (n : Int) (hn : n < 2 ^ 60) (hlen : n = 1 + ⌈(c.BitSize : ℚ) / 8⌉) :
    byteLen c = ⌈(c.BitSize : ℚ) / 8⌉ := by
  rw [ceil_div_eight] at hlen ⊢
  unfold byteLen wrapInt64
  norm_num at *
  omega

/-- C16. For a curve with prime `P ≡ 3 (mod 4)` and `cp` with header `h` in `{0x02, 0x03}` and
length `1 + ⌈BitSize / 8⌉` (`BitSize` a 64-bit `int`, the length one that fits in memory),
with `X` the integer in `cp[1:]`: if `X³ + B` is a non-zero quadratic residue modulo `P`,
`DecompressPoint` returns `(X, Y)`, for every fuel, where `Y` is the unique integer with
`0 < Y < P`, `Y² ≡ X³ + B` and `Y mod 2 = h - 2`; `IsOnCurve(X, Y)` holds.  Consequently an
on-curve point `(X0, Y0)` with `0 ≤ X0 < P`, `0 < Y0 < P` whose `X0` has exactly
`⌈BitSize / 8⌉` bytes is returned by `DecompressPoint(CompressPoint(X0, Y0))`. -/
theorem decompress_three_mod_four (c : Curve) (hp : Nat.Prime c.P.toNat) (h34 : c.P % 4 = 3)
    (hd : Nat) (tl : List Nat) (hhd : hd = 0x02 ∨ hd = 0x03)
    (hB1 : -2 ^ 63 ≤ c.BitSize) (hB2 : c.BitSize < 2 ^ 63)
    (hfit : ((hd :: tl).length : Int) < 2 ^ 60)
    (hlen : ((hd :: tl).length : Int) = 1 + ⌈(c.BitSize : ℚ) / 8⌉)
    (hqr : ∃ y : Int, y * y % c.P = (SetBytes tl ^ 3 + c.B) % c.P)
    (hnz : (SetBytes tl ^ 3 + c.B) % c.P ≠ 0) (fuel : Nat) :
    (∃ Y, DecompressPoint fuel c (hd :: tl) = Decompressed.point (SetBytes tl) Y ∧
      0 < Y ∧ Y < c.P ∧ Y ^ 2 % c.P = (SetBytes tl ^ 3 + c.B) % c.P ∧
      Y % 2 = (hd : Int) - 2 ∧ IsOnCurve c (SetBytes tl) Y = true ∧
      ∀ Y2 : Int, 0 < Y2 → Y2 < c.P → Y2 ^ 2 % c.P = (SetBytes tl ^ 3 + c.B) % c.P →
        Y2 % 2 = (hd : Int) - 2 → Y2 = Y) ∧
    (∀ X0 Y0 : Int, 0 ≤ X0 → X0 < c.P → 0 < Y0 → Y0 < c.P → IsOnCurve c X0 Y0 = true →
      ((Bytes X0).length : Int) = ⌈(c.BitSize : ℚ) / 8⌉ →
      DecompressPoint fuel c (CompressPoint c X0 Y0) = Decompressed.point X0 Y0) := by
  obtain ⟨q, hq⟩ : ∃ q : ℕ, c.P = (q : Int) := ⟨c.P.toNat, (prime_toNat_cast hp).symm⟩
  rw [hq, Int.toNat_natCast] at hp
  haveI : Fact q.Prime := ⟨hp⟩
  have hq2 : q ≠ 2 := by rintro rfl; rw [hq] at h34; simp at h34
  have hqodd : (q : Int) % 2 = 1 := by
    have := hp.eq_two_or_odd
    omega
  have hbl : byteLen c = ⌈(c.BitSize : ℚ) / 8⌉ := byteLen_of_fit c hB1 hB2 _ hfit hlen
  have hhd' : hd = 0x03 ∨ hd = 0x02 := hhd.symm
  have hcube : SetBytes tl * SetBytes tl * SetBytes tl = SetBytes tl ^ 3 := by ring
  constructor
  · have hlen' : (tl.length : Int) = byteLen c := by
      rw [hbl]
      have : ((hd :: tl).length : Int) = (tl.length : Int) + 1 := by simp
      rw [this] at hlen
      linarith
    obtain ⟨_, h2⟩ := decompress_outcome q hq2 c hq hd tl hhd' hlen' q (le_refl _)
    rw [hcube] at h2
    have hls : LegendreSymbol ((SetBytes tl ^ 3 + c.B) % c.P) c.P = 1 := by
      rw [hq] at hqr hnz ⊢
      exact legendre_of_residue q hq2 _ hqr hnz
    obtain ⟨Y, hY, hY0, hYP, hsq, hpar⟩ := h2 hls
    have hpar' : Y % 2 = (hd : Int) - 2 := by
      rw [hpar]
      rcases hhd with h | h <;> subst h <;> simp
    refine ⟨Y, ?_, hY0, hYP, ?_, hpar', ?_, ?_⟩
    · rw [DecompressPoint_fuel_irrelevant c h34 _ fuel q]; exact hY
    · rw [sq]; exact hsq
    · simp only [IsOnCurve, decide_eq_true_eq, hcube]; exact hsq.symm
    · intro Y2 h0 hP hsq2 hpar2
      rw [hq] at hYP hP hsq hsq2
      have hc : (Y2 : ZMod q) ^ 2 = (Y : ZMod q) ^ 2 := by
        have e : Y2 ^ 2 % (q : Int) = Y ^ 2 % (q : Int) := by rw [hsq2, sq Y, hsq]
        have := (ZMod.intCast_eq_intCast_iff' (Y2 ^ 2) (Y ^ 2) q).mpr e
        push_cast at this
        exact this
      rcases root_eq_or_neg q Y2 Y h0.le hP hY0 hYP hc with h | h
      · exact h
      · omega
  · intro X0 Y0 hX0 _ hY0 hYP hon hl
    rw [hq] at hYP
    have hon1 : (X0 * X0 * X0 + c.B) % c.P = Y0 * Y0 % c.P := by
      simpa [IsOnCurve] using hon
    have hhd0 : (if Y0 % 2 = 1 then 3 else 2 : Nat) = 0x03 ∨
        (if Y0 % 2 = 1 then 3 else 2 : Nat) = 0x02 := by
      by_cases h : Y0 % 2 = 1 <;> simp [h]
    have hpar : (if (if Y0 % 2 = 1 then 3 else 2 : Nat) = 0x03 then (1 : Int) else 0)
        = Y0 % 2 := by
      by_cases h : Y0 % 2 = 1
      · simp [h]
      · simp [h]; omega
    have := decompress_selects_root q hq2 c hq _ (Bytes X0) hhd0 (by rw [hl, hbl]) Y0 hY0 hYP
      (by rw [SetBytes_Bytes X0 hX0]; exact hon1) hpar q (le_refl _)
    rw [SetBytes_Bytes X0 hX0] at this
    rw [DecompressPoint_fuel_irrelevant c h34 _ fuel q]
    exact this


/-- C16, at `[0x02, 0x01]` on `y² = x³ + 3` over `F_7`. -/
theorem decompress_three_mod_four_witness :
    ∃ Y, DecompressPoint 0 ⟨7, 13, 3, 1, 2, 3⟩ [0x02, 0x01] = Decompressed.point 1 Y ∧
      0 < Y ∧ Y < 7 ∧ Y % 2 = 0 := by
  obtain ⟨Y, h1, h2, h3, _, h5, _⟩ :=
    (decompress_three_mod_four ⟨7, 13, 3, 1, 2, 3⟩ (by show Nat.Prime 7; norm_num) (by decide)
      0x02 [0x01] (Or.inl rfl) (by decide) (by decide) (by decide)
      (by rw [ceil_div_eight]; decide) ⟨2, by decide⟩ (by decide) 0).1
  exact ⟨Y, h1, h2, h3, h5⟩

/-- On the 112-bit curve, `0x02` followed by the bytes of `P + 1` decodes to `(P + 1, 2)`. -/
theorem decompress_p112_above_modulus (fuel : Nat) :
    DecompressPoint fuel curveP112 (0x02 :: Bytes (curveP112.P + 1))
      = Decompressed.point (curveP112.P + 1) 2 := by
  rw [DecompressPoint_fuel_irrelevant curveP112 (by decide!) _ fuel 0]
  decide!

/-- C20 (amended). For a curve with odd prime `P`, a header `0x02` or `0x03` and fuel at least
`P`: every point `(X, Y)` that `DecompressPoint` returns has `X` equal to the integer decoded
from the x field, not reduced (so `0 ≤ X`, and `X < P` exactly when the x field is below `P`),
`0 < Y < P`, and satisfies `IsOnCurve`; an x field of the required length is accepted whenever
`X³ + B` has Legendre symbol `1`, whatever its size: on the 112-bit curve `0x02` followed by the
14 bytes of `P + 1` returns `(P + 1, 2)`. -/
theorem decompress_returns_decoded_x (c : Curve) (hp : Nat.Prime c.P.toNat) (hodd : c.P % 2 = 1)
    (hd : Nat) (tl : List Nat) (hhd : hd = 0x02 ∨ hd = 0x03) (fuel : Nat)
    (hf : c.P.toNat ≤ fuel) :
    (∀ X Y, DecompressPoint fuel c (hd :: tl) = Decompressed.point X Y →
      X = SetBytes tl ∧ 0 ≤ X ∧ (X < c.P ↔ SetBytes tl < c.P) ∧ 0 < Y ∧ Y < c.P ∧
      IsOnCurve c X Y = true) ∧
    ((tl.length : Int) = byteLen c →
      LegendreSymbol ((SetBytes tl * SetBytes tl * SetBytes tl + c.B) % c.P) c.P = 1 →
      ∃ Y, DecompressPoint fuel c (hd :: tl) = Decompressed.point (SetBytes tl) Y) ∧
    DecompressPoint fuel curveP112 (0x02 :: Bytes (curveP112.P + 1))
      = Decompressed.point (curveP112.P + 1) 2 := by
  obtain ⟨q, hq⟩ : ∃ q : ℕ, c.P = (q : Int) := ⟨c.P.toNat, (prime_toNat_cast hp).symm⟩
  rw [hq, Int.toNat_natCast] at hp hf
  haveI : Fact q.Prime := ⟨hp⟩
  have hq2 : q ≠ 2 := by rintro rfl; rw [hq] at hodd; simp at hodd
  have hhd' : hd = 0x03 ∨ hd = 0x02 := hhd.symm
  refine ⟨?_, ?_, decompress_p112_above_modulus fuel⟩
  · intro X Y hXY
    by_cases hlen : (tl.length : Int) = byteLen c
    · obtain ⟨h1, h2⟩ := decompress_outcome q hq2 c hq hd tl hhd' hlen fuel hf
      by_cases hls :
          LegendreSymbol ((SetBytes tl * SetBytes tl * SetBytes tl + c.B) % c.P) c.P = 1
      · obtain ⟨Y1, hY1, hpos, hlt, hsq, _⟩ := h2 hls
        rw [hY1] at hXY
        injection hXY with hX hY
        subst hX
        subst hY
        refine ⟨rfl, ?_, Iff.rfl, hpos, hlt, ?_⟩
        · unfold SetBytes; positivity
        · simp only [IsOnCurve, decide_eq_true_eq]; exact hsq.symm
      · rw [h1 hls] at hXY
        exact absurd hXY (by simp)
    · rw [DecompressPoint_cons fuel c hd tl hhd',
        if_pos (by intro h; apply hlen; linarith)] at hXY
      exact absurd hXY (by simp)
  · intro hlen hls
    obtain ⟨_, h2⟩ := decompress_outcome q hq2 c hq hd tl hhd' hlen fuel hf
    obtain ⟨Y1, hY1, _⟩ := h2 hls
    exact ⟨Y1, hY1⟩

/-- C20 (amended), at `[0x02, 0x08]` on `y² = x³ + 3` over `F_7`: the x field `8` is not below
`P = 7`, and the point returned is `(8, 2)`. -/
theorem decompress_returns_decoded_x_witness :
    DecompressPoint 7 ⟨7, 13, 3, 1, 2, 3⟩ [0x02, 0x08] = Decompressed.point 8 2 ∧
    ((8 : Int) = SetBytes [0x08] ∧ (0 : Int) ≤ 8 ∧ ((8 : Int) < 7 ↔ SetBytes [0x08] < 7) ∧
      (0 : Int) < 2 ∧ (2 : Int) < 7 ∧ IsOnCurve ⟨7, 13, 3, 1, 2, 3⟩ 8 2 = true) :=
  ⟨by decide, (decompress_returns_decoded_x ⟨7, 13, 3, 1, 2, 3⟩ (by show Nat.Prime 7; norm_num)
    (by decide) 0x02 [0x08] (Or.inl rfl) 7 (by decide)).1 8 2 (by decide)⟩

/-- C20 (counterexample). On the 112-bit curve the 15 bytes `0x02` followed by the bytes of
`P + 1` have the required length and an x field `P + 1 ≥ P`, and `DecompressPoint` returns the
point `(P + 1, 2)`, whose `X` is not below `P`. -/
theorem decompress_accepts_x_above_modulus :
    ((0x02 :: Bytes (curveP112.P + 1)).length : Int) = 1 + byteLen curveP112 ∧
    SetBytes (Bytes (curveP112.P + 1)) = curveP112.P + 1 ∧
    DecompressPoint 0 curveP112 (0x02 :: Bytes (curveP112.P + 1))
      = Decompressed.point (curveP112.P + 1) 2 ∧
    ¬ (curveP112.P + 1 < curveP112.P) := by
  refine ⟨by decide!, by decide!, by decide!, by decide!⟩

/-! ## Jacobian formulas and the group law -/

open WeierstrassCurve.Affine

/-- The modulus is the zero class. -/
theorem cast_P (q : ℕ) (c : Curve) (hc : c.P = q) : ((c.P : Int) : ZMod q) = 0 := by
  rw [hc]; simp

/-- The conditional correction `if a < 0 then a + P` does not change the class of `a`. -/
theorem cast_fix (q : ℕ) (a : Int) :
    (((if a < 0 then a + (q : Int) else a) : Int) : ZMod q) = (a : ZMod q) := by
  split_ifs
  · push_cast; simp
  · rfl

/-- The three outputs of `doubleJacobian` as classes modulo `P`. -/
theorem cast_doubleJacobian (q : ℕ) (c : Curve) (hc : c.P = q) (x y z : Int) :
    (((doubleJacobian c x y z).1 : Int) : ZMod q)
      = (3 * (x : ZMod q) ^ 2) ^ 2 - 8 * (x : ZMod q) * (y : ZMod q) ^ 2 ∧
    (((doubleJacobian c x y z).2.1 : Int) : ZMod q)
      = 3 * (x : ZMod q) ^ 2 * (4 * (x : ZMod q) * (y : ZMod q) ^ 2
          - ((3 * (x : ZMod q) ^ 2) ^ 2 - 8 * (x : ZMod q) * (y : ZMod q) ^ 2))
        - 8 * (y : ZMod q) ^ 4 ∧
    (((doubleJacobian c x y z).2.2 : Int) : ZMod q) = 2 * (y : ZMod q) * (z : ZMod q) := by
  unfold doubleJacobian
  simp only [hc]
  refine ⟨?_, ?_, ?_⟩
  · push_cast; ring
  · push_cast; ring
  · push_cast; ring

/-- The value `H` and the three outputs of `addJacobian` as classes modulo `P`. -/
theorem cast_addJacobian (q : ℕ) (c : Curve) (hc : c.P = q) (x1 y1 z1 x2 y2 z2 : Int) :
    ((addJacobianH c x1 z1 x2 z2 : Int) : ZMod q)
      = (x2 : ZMod q) * (z1 : ZMod q) ^ 2 - (x1 : ZMod q) * (z2 : ZMod q) ^ 2 ∧
    (((addJacobian c x1 y1 z1 x2 y2 z2).1 : Int) : ZMod q)
      = (2 * ((y2 : ZMod q) * (z1 : ZMod q) ^ 3 - (y1 : ZMod q) * (z2 : ZMod q) ^ 3)) ^ 2
        - 4 * ((x2 : ZMod q) * (z1 : ZMod q) ^ 2 - (x1 : ZMod q) * (z2 : ZMod q) ^ 2) ^ 3
        - 8 * ((x1 : ZMod q) * (z2 : ZMod q) ^ 2)
          * ((x2 : ZMod q) * (z1 : ZMod q) ^ 2 - (x1 : ZMod q) * (z2 : ZMod q) ^ 2) ^ 2 ∧
    (((addJacobian c x1 y1 z1 x2 y2 z2).2.1 : Int) : ZMod q)
      = (2 * ((y2 : ZMod q) * (z1 : ZMod q) ^ 3 - (y1 : ZMod q) * (z2 : ZMod q) ^ 3))
          * (4 * ((x1 : ZMod q) * (z2 : ZMod q) ^ 2)
              * ((x2 : ZMod q) * (z1 : ZMod q) ^ 2 - (x1 : ZMod q) * (z2 : ZMod q) ^ 2) ^ 2
            - (((addJacobian c x1 y1 z1 x2 y2 z2).1 : Int) : ZMod q))
        - 8 * ((y1 : ZMod q) * (z2 : ZMod q) ^ 3)
          * ((x2 : ZMod q) * (z1 : ZMod q) ^ 2 - (x1 : ZMod q) * (z2 : ZMod q) ^ 2) ^ 3 ∧
    (((addJacobian c x1 y1 z1 x2 y2 z2).2.2 : Int) : ZMod q)
      = 2 * (z1 : ZMod q) * (z2 : ZMod q)
        * ((x2 : ZMod q) * (z1 : ZMod q) ^ 2 - (x1 : ZMod q) * (z2 : ZMod q) ^ 2) := by
  unfold addJacobian addJacobianH
  simp only [hc]
  refine ⟨?_, ?_, ?_, ?_⟩
  · simp only [Int.cast_mul, Int.cast_sub, Int.cast_add, cast_fix, cast_emod, Int.cast_ofNat]
    ring
  · simp only [Int.cast_mul, Int.cast_sub, Int.cast_add, cast_fix, cast_emod, Int.cast_ofNat]
    ring
  · simp only [Int.cast_mul, Int.cast_sub, Int.cast_add, cast_fix, cast_emod, Int.cast_ofNat]
    ring
  · simp only [Int.cast_mul, Int.cast_sub, Int.cast_add, cast_fix, cast_emod, Int.cast_ofNat]
    ring

/-- In a field where `2 ≠ 0`: the Jacobian doubling formulas, applied to a triple that stands for
the affine point `(x, y)` with `y ≠ 0`, give a triple that stands for the tangent-rule point. -/
theorem F_double {F : Type} [Field F] (x y Z : F) (hZ : Z ≠ 0) (hy : y ≠ 0) (h2 : (2 : F) ≠ 0) :
    ((3 * (x * Z ^ 2) ^ 2) ^ 2 - 8 * (x * Z ^ 2) * (y * Z ^ 3) ^ 2) / (2 * (y * Z ^ 3) * Z) ^ 2
      = (3 * x ^ 2 / (2 * y)) ^ 2 - x - x ∧
    (3 * (x * Z ^ 2) ^ 2 * (4 * (x * Z ^ 2) * (y * Z ^ 3) ^ 2
          - ((3 * (x * Z ^ 2) ^ 2) ^ 2 - 8 * (x * Z ^ 2) * (y * Z ^ 3) ^ 2))
        - 8 * (y * Z ^ 3) ^ 4) / (2 * (y * Z ^ 3) * Z) ^ 3
      = (3 * x ^ 2 / (2 * y)) * (x - ((3 * x ^ 2 / (2 * y)) ^ 2 - x - x)) - y := by
  have h2y : 2 * y ≠ 0 := mul_ne_zero h2 hy
  have hD : 2 * (y * Z ^ 3) * Z ≠ 0 :=
    mul_ne_zero (mul_ne_zero h2 (mul_ne_zero hy (pow_ne_zero _ hZ))) hZ
  obtain ⟨L, hL⟩ : ∃ L, L = 3 * x ^ 2 / (2 * y) := ⟨_, rfl⟩
  have hL2 : L * (2 * y) = 3 * x ^ 2 := by rw [hL]; field_simp
  rw [← hL]
  constructor
  · rw [div_eq_iff (pow_ne_zero 2 hD)]
    apply mul_left_cancel₀ (pow_ne_zero 2 h2y)
    linear_combination (-(4 * y ^ 2 * Z ^ 8) * (L * (2 * y) + 3 * x ^ 2)) * hL2
  · rw [div_eq_iff (pow_ne_zero 3 hD)]
    apply mul_left_cancel₀ (pow_ne_zero 3 h2y)
    linear_combination (-(8 * Z ^ 12 * y ^ 3 * (2 * y) ^ 2 * x) * 3
      - 8 * Z ^ 12 * y ^ 3 * (L ^ 2 * (2 * y) ^ 2 + L * (2 * y) * 3 * x ^ 2 + 9 * x ^ 4)
      + 16 * y ^ 3 * Z ^ 12 * (4 * y ^ 2 * L ^ 2 + 6 * y * L * x ^ 2 + 9 * x ^ 4)) * hL2

/-- In a field where `2 ≠ 0`: the Jacobian addition formulas, applied to an affine point
`(x1, y1)` (`Z = 1`) and a triple that stands for `(x2, y2)` with `x1 ≠ x2`, give a triple that
stands for the chord-rule point. -/
theorem F_add {F : Type} [Field F] (x1 y1 x2 y2 Z2 : F) (hZ : Z2 ≠ 0) (h2 : (2 : F) ≠ 0)
    (hx : x1 - x2 ≠ 0) :
    ((2 * (y2 * Z2 ^ 3 - y1 * Z2 ^ 3)) ^ 2 - 4 * (x2 * Z2 ^ 2 - x1 * Z2 ^ 2) ^ 3
        - 8 * (x1 * Z2 ^ 2) * (x2 * Z2 ^ 2 - x1 * Z2 ^ 2) ^ 2)
          / (2 * Z2 * (x2 * Z2 ^ 2 - x1 * Z2 ^ 2)) ^ 2
      = ((y1 - y2) / (x1 - x2)) ^ 2 - x1 - x2 ∧
    ((2 * (y2 * Z2 ^ 3 - y1 * Z2 ^ 3)) * (4 * (x1 * Z2 ^ 2) * (x2 * Z2 ^ 2 - x1 * Z2 ^ 2) ^ 2
          - ((2 * (y2 * Z2 ^ 3 - y1 * Z2 ^ 3)) ^ 2 - 4 * (x2 * Z2 ^ 2 - x1 * Z2 ^ 2) ^ 3
              - 8 * (x1 * Z2 ^ 2) * (x2 * Z2 ^ 2 - x1 * Z2 ^ 2) ^ 2))
        - 8 * (y1 * Z2 ^ 3) * (x2 * Z2 ^ 2 - x1 * Z2 ^ 2) ^ 3)
          / (2 * Z2 * (x2 * Z2 ^ 2 - x1 * Z2 ^ 2)) ^ 3
      = ((y1 - y2) / (x1 - x2)) * (x1 - (((y1 - y2) / (x1 - x2)) ^ 2 - x1 - x2)) - y1 := by
  have hx' : x2 * Z2 ^ 2 - x1 * Z2 ^ 2 ≠ 0 := by
    have : x2 * Z2 ^ 2 - x1 * Z2 ^ 2 = -((x1 - x2) * Z2 ^ 2) := by ring
    rw [this]
    exact neg_ne_zero.mpr (mul_ne_zero hx (pow_ne_zero _ hZ))
  constructor
  · field_simp
    ring
  · field_simp
    ring


/-- On `y² = x³ + B` the negative of `(x, y)` has ordinate `-y`. -/
theorem shortW_negY (q : ℕ) (B : Int) (x y : ZMod q) : (shortW q B).negY x y = -y := by
  simp [shortW]

/-- The abscissa of a sum on `y² = x³ + B`, from the slope `L`. -/
theorem shortW_addX (q : ℕ) (B : Int) (x1 x2 L : ZMod q) :
    (shortW q B).addX x1 x2 L = L ^ 2 - x1 - x2 := by
  simp [shortW]

/-- The ordinate of a sum on `y² = x³ + B`, from the slope `L`. -/
theorem shortW_addY (q : ℕ) (B : Int) (x1 x2 y1 L : ZMod q) :
    (shortW q B).addY x1 x2 y1 L = L * (x1 - (L ^ 2 - x1 - x2)) - y1 := by
  simp [shortW]
  ring

/-- The slope of the tangent on `y² = x³ + B`. -/
theorem shortW_slope_tangent (q : ℕ) [Fact q.Prime] (B : Int) (x y : ZMod q)
    (hy : y ≠ (shortW q B).negY x y) : (shortW q B).slope x x y y = 3 * x ^ 2 / (2 * y) := by
  rw [slope_of_Y_ne rfl hy]
  simp [shortW]
  congr 1
  ring

/-- The slope of the chord through two points with different abscissas. -/
theorem shortW_slope_chord (q : ℕ) [Fact q.Prime] (B : Int) (x1 x2 y1 y2 : ZMod q)
    (hx : x1 ≠ x2) : (shortW q B).slope x1 x2 y1 y2 = (y1 - y2) / (x1 - x2) :=
  slope_of_X_ne hx

/-- An affine point of the group depends only on its coordinates. -/
theorem some_congr {q : ℕ} {B : Int} {x y x' y' : ZMod q} (h : (shortW q B).Nonsingular x y)
    (ex : x' = x) (ey : y' = y) :
    ∃ h' : (shortW q B).Nonsingular x' y', Point.some h = Point.some h' := by
  subst ex
  subst ey
  exact ⟨h, rfl⟩

/-- An affine point with `Z = 1` stands for itself. -/
theorem rep_base (q : ℕ) [Fact q.Prime] (B : Int) (Bx By : Int)
    (h : (shortW q B).Nonsingular (Bx : ZMod q) (By : ZMod q)) :
    Represents q B Bx By 1 (Point.some h) := by
  refine ⟨by simp, ?_⟩
  exact some_congr h (by simp) (by simp)

/-- When the triple `(x, y, z)` stands for `Pt` and `Pt + Pt` is not the point at infinity,
`doubleJacobian` yields a triple that stands for `Pt + Pt`. -/
theorem rep_double (q : ℕ) [Fact q.Prime] (c : Curve) (hc : c.P = q) (x y z : Int)
    (Pt : (shortW q c.B).Point) (hrep : Represents q c.B x y z Pt) (hne : Pt + Pt ≠ 0) :
    Represents q c.B (doubleJacobian c x y z).1 (doubleJacobian c x y z).2.1
      (doubleJacobian c x y z).2.2 (Pt + Pt) := by
  obtain ⟨hz, h, rfl⟩ := hrep
  have hy : (y : ZMod q) / (z : ZMod q) ^ 3
      ≠ (shortW q c.B).negY ((x : ZMod q) / (z : ZMod q) ^ 2) ((y : ZMod q) / (z : ZMod q) ^ 3) :=
    fun e => hne (Point.add_self_of_Y_eq e)
  have hy' := hy
  rw [shortW_negY] at hy'
  have h2y : 2 * ((y : ZMod q) / (z : ZMod q) ^ 3) ≠ 0 := by
    intro e
    apply hy'
    linear_combination e
  have h2 : (2 : ZMod q) ≠ 0 := left_ne_zero_of_mul h2y
  have hy0 : (y : ZMod q) / (z : ZMod q) ^ 3 ≠ 0 := right_ne_zero_of_mul h2y
  have hY : (y : ZMod q) ≠ 0 := fun e => hy0 (by rw [e, zero_div])
  obtain ⟨e1, e2, e3⟩ := cast_doubleJacobian q c hc x y z
  have hX' : (x : ZMod q) = ((x : ZMod q) / (z : ZMod q) ^ 2) * (z : ZMod q) ^ 2 := by
    field_simp
  have hY' : (y : ZMod q) = ((y : ZMod q) / (z : ZMod q) ^ 3) * (z : ZMod q) ^ 3 := by
    field_simp
  obtain ⟨f1, f2⟩ := F_double ((x : ZMod q) / (z : ZMod q) ^ 2)
    ((y : ZMod q) / (z : ZMod q) ^ 3) (z : ZMod q) hz hy0 h2
  rw [← hX', ← hY'] at f1 f2
  refine ⟨by rw [e3]; exact mul_ne_zero (mul_ne_zero h2 hY) hz, ?_⟩
  rw [Point.add_self_of_Y_ne hy]
  apply some_congr
  · rw [shortW_addX, shortW_slope_tangent q c.B _ _ hy, e1, e3]
    exact f1
  · rw [shortW_addY, shortW_slope_tangent q c.B _ _ hy, e2, e3]
    rw [← f2]


/-- When `(x, y, z)` stands for `D`, and `D` is neither the base point nor its negative,
the `H` of `addJacobian` is a non-zero class and `addJacobian` yields a triple that stands for the
sum of the base point and `D`. -/
theorem rep_add (q : ℕ) [Fact q.Prime] (c : Curve) (hc : c.P = q) (h2 : (2 : ZMod q) ≠ 0)
    (Bx By : Int) (hB : (shortW q c.B).Nonsingular (Bx : ZMod q) (By : ZMod q)) (x y z : Int)
    (D : (shortW q c.B).Point) (hrep : Represents q c.B x y z D)
    (hne : Point.some hB ≠ D) (hsum : Point.some hB + D ≠ 0) :
    ((addJacobianH c Bx 1 x z : Int) : ZMod q) ≠ 0 ∧
    Represents q c.B (addJacobian c Bx By 1 x y z).1 (addJacobian c Bx By 1 x y z).2.1
      (addJacobian c Bx By 1 x y z).2.2 (Point.some hB + D) := by
  obtain ⟨hz, h, rfl⟩ := hrep
  have hx : (Bx : ZMod q) ≠ (x : ZMod q) / (z : ZMod q) ^ 2 := by
    intro e
    rcases Y_eq_of_X_eq hB.1 h.1 e with e2 | e2
    · apply hne
      obtain ⟨h', e3⟩ := some_congr h e e2
      rw [e3]
    · exact hsum (Point.add_of_Y_eq e e2)
  obtain ⟨e0, e1, e2, e3⟩ := cast_addJacobian q c hc Bx By 1 x y z
  rw [e1] at e2
  simp only [Int.cast_one, one_pow, mul_one] at e0 e1 e2 e3
  have hX' : (x : ZMod q) = ((x : ZMod q) / (z : ZMod q) ^ 2) * (z : ZMod q) ^ 2 := by
    field_simp
  have hY' : (y : ZMod q) = ((y : ZMod q) / (z : ZMod q) ^ 3) * (z : ZMod q) ^ 3 := by
    field_simp
  have hH : (x : ZMod q) - (Bx : ZMod q) * (z : ZMod q) ^ 2 ≠ 0 := by
    intro e
    apply hx
    field_simp
    linear_combination -e
  obtain ⟨f1, f2⟩ := F_add (Bx : ZMod q) (By : ZMod q) ((x : ZMod q) / (z : ZMod q) ^ 2)
    ((y : ZMod q) / (z : ZMod q) ^ 3) (z : ZMod q) hz h2 (sub_ne_zero.mpr hx)
  rw [← hX', ← hY'] at f1 f2
  refine ⟨by rw [e0]; exact hH, by rw [e3]; exact mul_ne_zero (mul_ne_zero h2 hz) hH, ?_⟩
  rw [Point.add_of_X_ne hx]
  apply some_congr
  · rw [shortW_addX, shortW_slope_chord q c.B _ _ _ _ hx, e1, e3]
    exact f1
  · rw [shortW_addY, shortW_slope_chord q c.B _ _ _ _ hx, e2, e3]
    exact f2

/-- When `(x, y, z)` stands for `Pt`, `affineFromJacobian` returns the reduced affine
coordinates of `Pt`. -/
theorem rep_affine (q : ℕ) [Fact q.Prime] (c : Curve) (hc : c.P = q) (x y z : Int)
    (Pt : (shortW q c.B).Point) (hrep : Represents q c.B x y z Pt) :
    ∃ X Y : Int, affineFromJacobian c x y z = some (X, Y) ∧ 0 ≤ X ∧ X < q ∧ 0 ≤ Y ∧ Y < q ∧
      ∃ h : (shortW q c.B).Nonsingular (X : ZMod q) (Y : ZMod q), Pt = Point.some h := by
  obtain ⟨hz, h, rfl⟩ := hrep
  have hq := (Fact.out : q.Prime)
  have hq0 : (q : Int) ≠ 0 := by exact_mod_cast hq.ne_zero
  have hqpos : (0 : Int) < q := by exact_mod_cast hq.pos
  obtain ⟨w, _, _, hw, hres⟩ := affineFromJacobian_some q c hc x y z hz
  have hw' : (w : ZMod q) = (z : ZMod q)⁻¹ := eq_inv_of_mul_eq_one_left hw
  refine ⟨_, _, hres, Int.emod_nonneg _ hq0, Int.emod_lt_of_pos _ hqpos,
    Int.emod_nonneg _ hq0, Int.emod_lt_of_pos _ hqpos, ?_⟩
  apply some_congr h
  · rw [cast_emod]
    push_cast
    rw [hw']
    field_simp
    left
    ring
  · rw [cast_emod]
    push_cast
    rw [hw']
    field_simp
    left
    ring

/-- `IsOnCurve` is the curve equation over `ZMod P`. -/
theorem isOnCurve_iff_equation (q : ℕ) (c : Curve) (hc : c.P = q) (x y : Int) :
    IsOnCurve c x y = true ↔ (shortW q c.B).Equation (x : ZMod q) (y : ZMod q) := by
  rw [equation_iff]
  simp only [IsOnCurve, decide_eq_true_eq, hc, shortW]
  constructor
  · intro h
    have := (ZMod.intCast_eq_intCast_iff' _ _ q).mpr h
    push_cast at this
    linear_combination -this
  · intro h
    apply (ZMod.intCast_eq_intCast_iff' _ _ q).mp
    push_cast
    linear_combination -h

/-- Modulo an odd prime, `2` is a non-zero class. -/
theorem two_ne_zero_zmod (q : ℕ) [Fact q.Prime] (hq2 : q ≠ 2) : (2 : ZMod q) ≠ 0 := by
  intro h
  have hq := (Fact.out : q.Prime)
  have h' : ((2 : ℕ) : ZMod q) = 0 := by exact_mod_cast h
  rw [ZMod.natCast_zmod_eq_zero_iff_dvd] at h'
  exact hq2 ((Nat.prime_dvd_prime_iff_eq hq Nat.prime_two).mp h')

/-- Modulo a prime other than `3`, `3` is a non-zero class. -/
theorem three_ne_zero_zmod (q : ℕ) [Fact q.Prime] (hq3 : q ≠ 3) : (3 : ZMod q) ≠ 0 := by
  intro h
  have hq := (Fact.out : q.Prime)
  have h' : ((3 : ℕ) : ZMod q) = 0 := by exact_mod_cast h
  rw [ZMod.natCast_zmod_eq_zero_iff_dvd] at h'
  exact hq3 ((Nat.prime_dvd_prime_iff_eq hq Nat.prime_three).mp h')

/-- When `P` is a prime other than `2` and `3` and `B ≢ 0`, every point of `y² = x³ + B` is
non-singular. -/
theorem nonsingular_of_equation (q : ℕ) [Fact q.Prime] (hq2 : q ≠ 2) (hq3 : q ≠ 3) (B : Int)
    (hB : (B : ZMod q) ≠ 0) (x y : ZMod q) (h : (shortW q B).Equation x y) :
    (shortW q B).Nonsingular x y := by
  rw [nonsingular_iff]
  refine ⟨h, ?_⟩
  rw [equation_iff] at h
  simp only [shortW] at h ⊢
  by_cases hy : y = 0
  · left
    have hx : x ≠ 0 := by
      rintro rfl
      apply hB
      rw [hy] at h
      linear_combination -h
    simp only [zero_mul, mul_zero, add_zero]
    exact (mul_ne_zero (three_ne_zero_zmod q hq3) (pow_ne_zero 2 hx)).symm
  · right
    intro e
    have : 2 * y = 0 := by linear_combination e
    exact (mul_ne_zero (two_ne_zero_zmod q hq2) hy) this

/-! ## The affine rules that `Double` and `Add` compute -/

/-- A non-zero integer in `[0, P)` is a non-zero class. -/
theorem cast_ne_zero_of_range (q : ℕ) (y : Int) (hy0 : 0 ≤ y) (hyq : y < q) (hy : y ≠ 0) :
    (y : ZMod q) ≠ 0 := by
  intro h
  rw [← cast_eq_zero_iff, Int.emod_eq_of_lt hy0 hyq] at h
  exact hy h

/-- An integer whose class is `1` reduces to `1` modulo a prime. -/
theorem emod_eq_one_of_cast (q : ℕ) [Fact q.Prime] (a : Int) (h : (a : ZMod q) = 1) :
    a % (q : Int) = 1 := by
  have hq := (Fact.out : q.Prime)
  apply emod_eq_of_cast_eq q a 1 (by simpa using h) (by norm_num)
  exact_mod_cast hq.one_lt

/-- An integer that reduces to `1` has class `1`. -/
theorem cast_eq_one_of_emod (q : ℕ) (a : Int) (h : a % (q : Int) = 1) : (a : ZMod q) = 1 := by
  have := cast_emod q a
  rw [h] at this
  simpa using this.symm

/-- C19. For a curve with odd prime `P` and `x, y` in `[0, P)` with `y ≠ 0`: the `Z` that
`doubleJacobian` yields on `(x, y, 1)` is `2*y mod P`; it has an inverse (`ModInverse` returns
one), so does `2*y`; and for every inverse `inv` of `2*y`, with `L = 3*x²*inv mod P`,
`x3 = (L² - 2*x) mod P` and `y3 = (L*(x - x3) - y) mod P`, `Double(x, y)` returns `(x3, y3)`, both
in `[0, P)`, and `(x3, y3)` satisfies `IsOnCurve` when `(x, y)` does. -/
theorem double_tangent_rule (c : Curve) (hp : Nat.Prime c.P.toNat) (hodd : c.P % 2 = 1)
    (x y : Int) (_hx0 : 0 ≤ x) (_hxP : x < c.P) (hy0 : 0 ≤ y) (hyP : y < c.P) (hy : y ≠ 0) :
    (doubleJacobian c x y 1).2.2 = 2 * y % c.P ∧
    (∃ zinv : Int, ModInverse (2 * y % c.P) c.P = some zinv ∧
      zinv * (2 * y % c.P) % c.P = 1) ∧
    (∃ inv : Int, inv * (2 * y) % c.P = 1) ∧
    ∀ inv L x3 y3 : Int, inv * (2 * y) % c.P = 1 → L = 3 * x ^ 2 * inv % c.P →
      x3 = (L ^ 2 - 2 * x) % c.P → y3 = (L * (x - x3) - y) % c.P →
      Double c x y = some (x3, y3) ∧ 0 ≤ x3 ∧ x3 < c.P ∧ 0 ≤ y3 ∧ y3 < c.P ∧
      (IsOnCurve c x y = true → IsOnCurve c x3 y3 = true) := by
  obtain ⟨q, hq⟩ : ∃ q : ℕ, c.P = (q : Int) := ⟨c.P.toNat, (prime_toNat_cast hp).symm⟩
  rw [hq, Int.toNat_natCast] at hp
  haveI : Fact q.Prime := ⟨hp⟩
  have hq2 : q ≠ 2 := by rintro rfl; rw [hq] at hodd; simp at hodd
  have hq0 : (q : Int) ≠ 0 := by exact_mod_cast hp.ne_zero
  have hqpos : (0 : Int) < q := by exact_mod_cast hp.pos
  have h2 : (2 : ZMod q) ≠ 0 := two_ne_zero_zmod q hq2
  rw [hq] at hyP
  have hyc : (y : ZMod q) ≠ 0 := cast_ne_zero_of_range q y hy0 hyP hy
  have h2y : (2 : ZMod q) * (y : ZMod q) ≠ 0 := mul_ne_zero h2 hyc
  have hzc : ((2 * y % (q : Int) : Int) : ZMod q) ≠ 0 := by
    rw [cast_emod]; push_cast; exact h2y
  obtain ⟨e1, e2, e3⟩ := cast_doubleJacobian q c hq x y 1
  simp only [Int.cast_one, mul_one] at e3
  have hz3 : (((doubleJacobian c x y 1).2.2 : Int) : ZMod q) ≠ 0 := by rw [e3]; exact h2y
  rw [hq]
  refine ⟨by rw [doubleJacobian_z, mul_one, hq], ?_, ?_, ?_⟩
  · obtain ⟨w, hw, _, _, hw1⟩ := ModInverse_nonzero q _ hzc
    exact ⟨w, hw, emod_eq_one_of_cast q _ (by push_cast at hw1 ⊢; exact hw1)⟩
  · obtain ⟨w, _, _, _, hw1⟩ := ModInverse_nonzero q _ hzc
    refine ⟨w, emod_eq_one_of_cast q _ ?_⟩
    rw [cast_emod] at hw1
    push_cast at hw1 ⊢
    exact hw1
  · intro inv L x3 y3 hinv hL hx3 hy3
    have hinvc : (inv : ZMod q) * (2 * (y : ZMod q)) = 1 := by
      have := cast_eq_one_of_emod q _ hinv
      push_cast at this
      exact this
    have hinv' : (inv : ZMod q) = (2 * (y : ZMod q))⁻¹ := eq_inv_of_mul_eq_one_left hinvc
    obtain ⟨w, _, _, hw, hres⟩ := affineFromJacobian_some q c hq (doubleJacobian c x y 1).1
      (doubleJacobian c x y 1).2.1 (doubleJacobian c x y 1).2.2 hz3
    rw [e3] at hw
    have hw' : (w : ZMod q) = (2 * (y : ZMod q))⁻¹ := eq_inv_of_mul_eq_one_left hw
    obtain ⟨f1, f2⟩ := F_double (x : ZMod q) (y : ZMod q) 1 one_ne_zero hyc h2
    simp only [one_pow, mul_one] at f1 f2
    have hLc : (L : ZMod q) = 3 * (x : ZMod q) ^ 2 / (2 * (y : ZMod q)) := by
      rw [hL, cast_emod]; push_cast; rw [hinv', div_eq_mul_inv]
    have hx3c : (x3 : ZMod q)
        = (3 * (x : ZMod q) ^ 2 / (2 * (y : ZMod q))) ^ 2 - (x : ZMod q) - (x : ZMod q) := by
      rw [hx3, cast_emod]; push_cast; rw [hLc]; ring
    have hy3c : (y3 : ZMod q)
        = 3 * (x : ZMod q) ^ 2 / (2 * (y : ZMod q)) * ((x : ZMod q)
          - ((3 * (x : ZMod q) ^ 2 / (2 * (y : ZMod q))) ^ 2 - (x : ZMod q) - (x : ZMod q)))
          - (y : ZMod q) := by
      rw [hy3, cast_emod]; push_cast; rw [hLc, hx3c]
    have hx3r : 0 ≤ x3 ∧ x3 < q := by
      rw [hx3]; exact ⟨Int.emod_nonneg _ hq0, Int.emod_lt_of_pos _ hqpos⟩
    have hy3r : 0 ≤ y3 ∧ y3 < q := by
      rw [hy3]; exact ⟨Int.emod_nonneg _ hq0, Int.emod_lt_of_pos _ hqpos⟩
    refine ⟨?_, hx3r.1, hx3r.2, hy3r.1, hy3r.2, ?_⟩
    · unfold Double
      simp only []
      rw [hres]
      congr 2
      · apply emod_eq_of_cast_eq q _ _ _ hx3r.1 hx3r.2
        push_cast
        rw [hx3c, e1, hw', ← f1]
        generalize 2 * (y : ZMod q) = D
        ring
      · apply emod_eq_of_cast_eq q _ _ _ hy3r.1 hy3r.2
        push_cast
        rw [hy3c, e2, hw', ← f2]
        generalize 2 * (y : ZMod q) = D
        ring
    · intro hon
      have heq := (isOnCurve_iff_equation q c hq x y).mp hon
      have hyn : (y : ZMod q) ≠ (shortW q c.B).negY (x : ZMod q) (y : ZMod q) := by
        rw [shortW_negY]
        intro e
        apply h2y
        linear_combination e
      have := equation_add heq heq (fun _ => hyn)
      rw [shortW_addX, shortW_addY, shortW_slope_tangent q c.B _ _ hyn] at this
      rw [isOnCurve_iff_equation q c hq, hx3c, hy3c]
      exact this


/-- C19, at the point `(1, 2)` of `y² = x³ + 3` over `F_7`: the double is `(6, 3)`. -/
theorem double_tangent_rule_witness :
    Double ⟨7, 13, 3, 1, 2, 3⟩ 1 2 = some (6, 3) ∧ IsOnCurve ⟨7, 13, 3, 1, 2, 3⟩ 6 3 = true := by
  obtain ⟨h1, _, _, _, _, h6⟩ :=
    (double_tangent_rule ⟨7, 13, 3, 1, 2, 3⟩ (by show Nat.Prime 7; norm_num) (by decide) 1 2
      (by decide) (by decide) (by decide) (by decide) (by decide)).2.2.2 2 6 6 3
      (by decide) (by decide) (by decide) (by decide)
  exact ⟨h1, h6 (by decide)⟩

/-- The `Z` that `addJacobian` yields is reduced modulo `P`. -/
theorem addJacobian_z_reduced (c : Curve) (x1 y1 z1 x2 y2 z2 : Int) :
    (addJacobian c x1 y1 z1 x2 y2 z2).2.2 % c.P = (addJacobian c x1 y1 z1 x2 y2 z2).2.2 := by
  unfold addJacobian
  simp only []
  exact Int.emod_emod_of_dvd _ (dvd_refl _)

/-- Two different integers in `[0, P)` are different classes. -/
theorem cast_ne_of_range (q : ℕ) (a b : Int) (ha0 : 0 ≤ a) (haq : a < q) (hb0 : 0 ≤ b)
    (hbq : b < q) (h : a ≠ b) : (a : ZMod q) ≠ (b : ZMod q) := by
  intro e
  have := (ZMod.intCast_eq_intCast_iff' a b q).mp e
  rw [Int.emod_eq_of_lt ha0 haq, Int.emod_eq_of_lt hb0 hbq] at this
  exact h this

/-- C18. For a curve with odd prime `P` and `x1, y1, x2, y2` in `[0, P)` with `x1 ≠ x2`: the `Z`
that `addJacobian` yields on `(x1, y1, 1)` and `(x2, y2, 1)` is `2*(x2 - x1) mod P`; it has an
inverse (`ModInverse` returns one), so does `x2 - x1`; and for every inverse `inv` of `x2 - x1`,
with `L = (y2 - y1)*inv mod P`, `x3 = (L² - x1 - x2) mod P` and `y3 = (L*(x1 - x3) - y1) mod P`,
`Add(x1, y1, x2, y2)` returns `(x3, y3)`, both in `[0, P)`, and `(x3, y3)` satisfies `IsOnCurve`
when both operands do. -/
theorem add_chord_rule (c : Curve) (hp : Nat.Prime c.P.toNat) (hodd : c.P % 2 = 1)
    (x1 y1 x2 y2 : Int) (hx1 : 0 ≤ x1 ∧ x1 < c.P) (_hy1 : 0 ≤ y1 ∧ y1 < c.P)
    (hx2 : 0 ≤ x2 ∧ x2 < c.P) (_hy2 : 0 ≤ y2 ∧ y2 < c.P) (hne : x1 ≠ x2) :
    (addJacobian c x1 y1 1 x2 y2 1).2.2 = 2 * (x2 - x1) % c.P ∧
    (∃ zinv : Int, ModInverse (2 * (x2 - x1) % c.P) c.P = some zinv ∧
      zinv * (2 * (x2 - x1) % c.P) % c.P = 1) ∧
    (∃ inv : Int, inv * (x2 - x1) % c.P = 1) ∧
    ∀ inv L x3 y3 : Int, inv * (x2 - x1) % c.P = 1 → L = (y2 - y1) * inv % c.P →
      x3 = (L ^ 2 - x1 - x2) % c.P → y3 = (L * (x1 - x3) - y1) % c.P →
      Add c x1 y1 x2 y2 = some (x3, y3) ∧ 0 ≤ x3 ∧ x3 < c.P ∧ 0 ≤ y3 ∧ y3 < c.P ∧
      (IsOnCurve c x1 y1 = true → IsOnCurve c x2 y2 = true → IsOnCurve c x3 y3 = true) := by
  obtain ⟨q, hq⟩ : ∃ q : ℕ, c.P = (q : Int) := ⟨c.P.toNat, (prime_toNat_cast hp).symm⟩
  rw [hq, Int.toNat_natCast] at hp
  haveI : Fact q.Prime := ⟨hp⟩
  have hq2 : q ≠ 2 := by rintro rfl; rw [hq] at hodd; simp at hodd
  have hq0 : (q : Int) ≠ 0 := by exact_mod_cast hp.ne_zero
  have hqpos : (0 : Int) < q := by exact_mod_cast hp.pos
  have h2 : (2 : ZMod q) ≠ 0 := two_ne_zero_zmod q hq2
  rw [hq] at hx1 hx2
  have hxc : (x1 : ZMod q) ≠ (x2 : ZMod q) :=
    cast_ne_of_range q x1 x2 hx1.1 hx1.2 hx2.1 hx2.2 hne
  have hd : (x2 : ZMod q) - (x1 : ZMod q) ≠ 0 := sub_ne_zero.mpr hxc.symm
  have h2d : (2 : ZMod q) * ((x2 : ZMod q) - (x1 : ZMod q)) ≠ 0 := mul_ne_zero h2 hd
  have hzc : ((2 * (x2 - x1) % (q : Int) : Int) : ZMod q) ≠ 0 := by
    rw [cast_emod]; push_cast; exact h2d
  obtain ⟨_, e1, e2, e3⟩ := cast_addJacobian q c hq x1 y1 1 x2 y2 1
  rw [e1] at e2
  simp only [Int.cast_one, one_pow, mul_one] at e1 e2 e3
  have hz3 : (((addJacobian c x1 y1 1 x2 y2 1).2.2 : Int) : ZMod q) ≠ 0 := by
    rw [e3]; exact h2d
  have hZ : (addJacobian c x1 y1 1 x2 y2 1).2.2 = 2 * (x2 - x1) % (q : Int) := by
    rw [← addJacobian_z_reduced, hq]
    apply emod_eq_of_cast_eq q _ _ _ (Int.emod_nonneg _ hq0) (Int.emod_lt_of_pos _ hqpos)
    rw [e3, cast_emod]
    push_cast
    rfl
  rw [hq]
  refine ⟨hZ, ?_, ?_, ?_⟩
  · obtain ⟨w, hw, _, _, hw1⟩ := ModInverse_nonzero q _ hzc
    exact ⟨w, hw, emod_eq_one_of_cast q _ (by push_cast at hw1 ⊢; exact hw1)⟩
  · obtain ⟨w, _, _, _, hw1⟩ := ModInverse_nonzero q ((x2 - x1 : Int)) (by push_cast; exact hd)
    exact ⟨w, emod_eq_one_of_cast q _ (by push_cast at hw1 ⊢; exact hw1)⟩
  · intro inv L x3 y3 hinv hL hx3 hy3
    have hinvc : (inv : ZMod q) * ((x2 : ZMod q) - (x1 : ZMod q)) = 1 := by
      have := cast_eq_one_of_emod q _ hinv
      push_cast at this
      exact this
    have hinv' : (inv : ZMod q) = ((x2 : ZMod q) - (x1 : ZMod q))⁻¹ :=
      eq_inv_of_mul_eq_one_left hinvc
    obtain ⟨w, _, _, hw, hres⟩ := affineFromJacobian_some q c hq (addJacobian c x1 y1 1 x2 y2 1).1
      (addJacobian c x1 y1 1 x2 y2 1).2.1 (addJacobian c x1 y1 1 x2 y2 1).2.2 hz3
    rw [e3] at hw
    have hw' : (w : ZMod q) = (2 * ((x2 : ZMod q) - (x1 : ZMod q)))⁻¹ :=
      eq_inv_of_mul_eq_one_left hw
    obtain ⟨f1, f2⟩ := F_add (x1 : ZMod q) (y1 : ZMod q) (x2 : ZMod q) (y2 : ZMod q) 1
      one_ne_zero h2 (sub_ne_zero.mpr hxc)
    simp only [one_pow, mul_one] at f1 f2
    have hLc : (L : ZMod q)
        = ((y1 : ZMod q) - (y2 : ZMod q)) / ((x1 : ZMod q) - (x2 : ZMod q)) := by
      rw [hL, cast_emod]
      push_cast
      rw [hinv', ← div_eq_mul_inv, ← neg_sub (y2 : ZMod q) (y1 : ZMod q),
        ← neg_sub (x2 : ZMod q) (x1 : ZMod q), neg_div_neg_eq]
    have hx3c : (x3 : ZMod q)
        = (((y1 : ZMod q) - (y2 : ZMod q)) / ((x1 : ZMod q) - (x2 : ZMod q))) ^ 2
          - (x1 : ZMod q) - (x2 : ZMod q) := by
      rw [hx3, cast_emod]; push_cast; rw [hLc]
    have hy3c : (y3 : ZMod q)
        = ((y1 : ZMod q) - (y2 : ZMod q)) / ((x1 : ZMod q) - (x2 : ZMod q)) * ((x1 : ZMod q)
          - ((((y1 : ZMod q) - (y2 : ZMod q)) / ((x1 : ZMod q) - (x2 : ZMod q))) ^ 2
            - (x1 : ZMod q) - (x2 : ZMod q))) - (y1 : ZMod q) := by
      rw [hy3, cast_emod]; push_cast; rw [hLc, hx3c]
    have hx3r : 0 ≤ x3 ∧ x3 < q := by
      rw [hx3]; exact ⟨Int.emod_nonneg _ hq0, Int.emod_lt_of_pos _ hqpos⟩
    have hy3r : 0 ≤ y3 ∧ y3 < q := by
      rw [hy3]; exact ⟨Int.emod_nonneg _ hq0, Int.emod_lt_of_pos _ hqpos⟩
    refine ⟨?_, hx3r.1, hx3r.2, hy3r.1, hy3r.2, ?_⟩
    · unfold Add
      simp only []
      rw [hres]
      congr 2
      · apply emod_eq_of_cast_eq q _ _ _ hx3r.1 hx3r.2
        push_cast
        rw [hx3c, e1, hw', ← f1]
        generalize 2 * ((x2 : ZMod q) - (x1 : ZMod q)) = D
        ring
      · apply emod_eq_of_cast_eq q _ _ _ hy3r.1 hy3r.2
        push_cast
        rw [hy3c, e2, hw', ← f2]
        generalize 2 * ((x2 : ZMod q) - (x1 : ZMod q)) = D
        ring
    · intro hon1 hon2
      have heq1 := (isOnCurve_iff_equation q c hq x1 y1).mp hon1
      have heq2 := (isOnCurve_iff_equation q c hq x2 y2).mp hon2
      have := equation_add heq1 heq2 (fun e => absurd e hxc)
      rw [shortW_addX, shortW_addY, shortW_slope_chord q c.B _ _ _ _ hxc] at this
      rw [isOnCurve_iff_equation q c hq, hx3c, hy3c]
      exact this

/-- C18, at the points `(1, 2)` and `(2, 5)` of `y² = x³ + 3` over `F_7`: the sum is `(6, 4)`. -/
theorem add_chord_rule_witness :
    Add ⟨7, 13, 3, 1, 2, 3⟩ 1 2 2 5 = some (6, 4) ∧ IsOnCurve ⟨7, 13, 3, 1, 2, 3⟩ 6 4 = true := by
  obtain ⟨h1, _, _, _, _, h6⟩ :=
    (add_chord_rule ⟨7, 13, 3, 1, 2, 3⟩ (by show Nat.Prime 7; norm_num) (by decide) 1 2 2 5
      (by decide) (by decide) (by decide) (by decide) (by decide)).2.2.2 1 3 6 4
      (by decide) (by decide) (by decide) (by decide)
  exact ⟨h1, h6 (by decide) (by decide)⟩

/-! ## Scalar multiplication below the order of the point -/

/-- The test `byte&0x80 == 0x80` reads the top bit of a byte. -/
theorem land_top_bit : ∀ b : Nat, b < 256 → (Nat.land b 0x80 = 0x80 ↔ 128 ≤ b) := by
  decide!

/-- A non-zero class does not reduce to `0` modulo `P`. -/
theorem emod_ne_zero_of_cast (q : ℕ) (c : Curve) (hc : c.P = q) (z : Int)
    (hz : (z : ZMod q) ≠ 0) : z % c.P ≠ 0 := by
  rw [hc]
  exact fun h => hz ((cast_eq_zero_iff q z).mp h)

/-- Under the loop invariant the `Z` of the loop variables is non-zero modulo `P`. -/
theorem accInv_z (q : ℕ) [Fact q.Prime] (c : Curve) (hc : c.P = q) (Bx By : Int)
    (G : (shortW q c.B).Point) (m : Nat) (s : Acc) (h : AccInv q c Bx By G m s) :
    s.z % c.P ≠ 0 := by
  rcases h with ⟨_, rfl⟩ | ⟨_, _, hrep⟩
  · exact emod_ne_zero_of_cast q c hc 1 (by simp)
  · exact emod_ne_zero_of_cast q c hc _ hrep.1

/-- One pass of the inner loop of `ScalarMult`, with top bit `t = b / 128`: when no multiple
`j • G` with `0 < j ≤ 2*m + t` is the point at infinity, the pass is safe and takes the invariant
from `m` to `2*m + t`. -/
theorem scalarStep_inv (q : ℕ) [Fact q.Prime] (c : Curve) (hc : c.P = q)
    (h2 : (2 : ZMod q) ≠ 0) (Bx By : Int)
    (hB : (shortW q c.B).Nonsingular (Bx : ZMod q) (By : ZMod q)) (m : Nat) (s : Acc) (b : Nat)
    (hb : b < 256) (hinv : AccInv q c Bx By (Point.some hB) m s)
    (hsafe : ∀ j : Nat, 0 < j → j ≤ 2 * m + b / 128 → j • Point.some hB ≠ 0) :
    PassSafe c Bx By s b ∧
    AccInv q c Bx By (Point.some hB) (2 * m + b / 128) (scalarStep c Bx By s b) := by
  have hbit := land_top_bit b hb
  rcases hinv with ⟨rfl, rfl⟩ | ⟨hm, hs, hrep⟩
  · refine ⟨fun h => by simp at h, ?_⟩
    by_cases h : 128 ≤ b
    · have e : 2 * 0 + b / 128 = 1 := by omega
      rw [e]
      right
      refine ⟨by omega, ?_, ?_⟩
      · simp [scalarStep, hbit.mpr h]
      · simp only [scalarStep, hbit.mpr h, if_true]
        rw [one_nsmul]
        exact rep_base q c.B Bx By hB
    · have e : 2 * 0 + b / 128 = 0 := by omega
      rw [e]
      left
      refine ⟨rfl, ?_⟩
      have : ¬ Nat.land b 0x80 = 0x80 := fun h' => h (hbit.mp h')
      simp [scalarStep, this]
  · obtain ⟨x, y, z, seen⟩ := s
    simp only at hs hrep
    subst hs
    have e2 : m • Point.some hB + m • Point.some hB = (2 * m) • Point.some hB := by
      rw [two_mul, add_nsmul]
    have hd := rep_double q c hc x y z _ hrep
      (by rw [e2]; exact hsafe (2 * m) (by omega) (by omega))
    rw [e2] at hd
    have hzd := emod_ne_zero_of_cast q c hc _ hd.1
    by_cases h : 128 ≤ b
    · have e : 2 * m + b / 128 = 2 * m + 1 := by omega
      rw [e] at hsafe ⊢
      have e3 : Point.some hB + (2 * m) • Point.some hB = (2 * m + 1) • Point.some hB := by
        rw [add_nsmul, one_nsmul, add_comm]
      have hne : Point.some hB ≠ (2 * m) • Point.some hB := by
        intro heq
        have e4 : (2 * m) • Point.some hB
            = (2 * m - 1) • Point.some hB + Point.some hB := by
          conv_lhs => rw [show 2 * m = (2 * m - 1) + 1 by omega]
          rw [add_nsmul, one_nsmul]
        have e5 : (2 * m - 1) • Point.some hB = 0 := by
          have e6 := heq.trans e4
          have e7 : (2 * m - 1) • Point.some hB + Point.some hB
              = 0 + Point.some hB := by rw [zero_add]; exact e6.symm
          exact add_right_cancel e7
        exact hsafe (2 * m - 1) (by omega) (by omega) e5
      obtain ⟨hH, ha⟩ := rep_add q c hc h2 Bx By hB _ _ _ _ hd hne
        (by rw [e3]; exact hsafe (2 * m + 1) (by omega) (le_refl _))
      rw [e3] at ha
      refine ⟨fun _ => ⟨hzd, fun _ => ⟨emod_ne_zero_of_cast q c hc _ hH,
        emod_ne_zero_of_cast q c hc _ ha.1⟩⟩, ?_⟩
      right
      refine ⟨by omega, ?_, ?_⟩
      · simp [scalarStep, hbit.mpr h]
      · simp only [scalarStep, hbit.mpr h, if_true]
        exact ha
    · have e : 2 * m + b / 128 = 2 * m := by omega
      rw [e]
      have hnb : ¬ Nat.land b 0x80 = 0x80 := fun h' => h (hbit.mp h')
      refine ⟨fun _ => ⟨hzd, fun h' => absurd h' hnb⟩, ?_⟩
      right
      refine ⟨by omega, ?_, ?_⟩
      · simp [scalarStep, hnb]
      · simp only [scalarStep, hnb, if_true, if_false]
        exact hd


/-- The value read from the top `n + 1` bits of a byte, one bit at a time. -/
theorem byte_value_step (n b : Nat) (hn : n + 1 ≤ 8) (m : Nat) :
    (2 * m + b / 128) * 2 ^ n + (b * 2 % 256) / 2 ^ (8 - n)
      = m * 2 ^ (n + 1) + b / 2 ^ (8 - (n + 1)) := by
  have hn' : n ≤ 7 := by omega
  interval_cases n <;> norm_num <;> omega

/-- The inner loop of `ScalarMult` over the top `n` bits of a byte: every pass is safe and the
invariant goes from `m` to `m * 2^n + b / 2^(8 - n)`. -/
theorem scalarByte_inv (q : ℕ) [Fact q.Prime] (c : Curve) (hc : c.P = q)
    (h2 : (2 : ZMod q) ≠ 0) (Bx By : Int)
    (hB : (shortW q c.B).Nonsingular (Bx : ZMod q) (By : ZMod q)) :
    ∀ (n m : Nat) (s : Acc) (b : Nat), n ≤ 8 → b < 256 →
      AccInv q c Bx By (Point.some hB) m s →
      (∀ j : Nat, 0 < j → j ≤ m * 2 ^ n + b / 2 ^ (8 - n) → j • Point.some hB ≠ 0) →
      (∀ sb ∈ scalarByteTrace c Bx By n s b, sb.1.z % c.P ≠ 0 ∧ PassSafe c Bx By sb.1 sb.2) ∧
      AccInv q c Bx By (Point.some hB) (m * 2 ^ n + b / 2 ^ (8 - n))
        (scalarByte c Bx By n s b) := by
  intro n
  induction n with
  | zero =>
    intro m s b _ hb hinv _
    refine ⟨fun sb h => by simp [scalarByteTrace] at h, ?_⟩
    have e : m * 2 ^ 0 + b / 2 ^ (8 - 0) = m := by
      norm_num
      omega
    rw [e]
    exact hinv
  | succ n ih =>
    intro m s b hn hb hinv hsafe
    have hval := byte_value_step n b hn m
    have hb1 : b * 2 % 256 < 256 := Nat.mod_lt _ (by norm_num)
    have hle : 2 * m + b / 128 ≤ (2 * m + b / 128) * 2 ^ n + (b * 2 % 256) / 2 ^ (8 - n) :=
      le_trans (Nat.le_mul_of_pos_right _ (pow_pos (by norm_num) n)) (Nat.le_add_right _ _)
    obtain ⟨hp, hinv1⟩ := scalarStep_inv q c hc h2 Bx By hB m s b hb hinv
      (fun j hj hjle => hsafe j hj (by rw [← hval]; exact le_trans hjle hle))
    obtain ⟨ht, hinv2⟩ := ih (2 * m + b / 128) (scalarStep c Bx By s b) (b * 2 % 256)
      (by omega) hb1 hinv1 (fun j hj hjle => hsafe j hj (by rw [← hval]; exact hjle))
    rw [hval] at hinv2
    refine ⟨?_, hinv2⟩
    intro sb hsb
    simp only [scalarByteTrace, List.mem_cons] at hsb
    rcases hsb with rfl | hsb
    · exact ⟨accInv_z q c hc Bx By _ m s hinv, hp⟩
    · exact ht sb hsb

/-- Reading more bytes does not lower the value read. -/
theorem foldl_bytes_ge : ∀ (k : List Nat) (m : Nat),
    m ≤ k.foldl (fun acc b => acc * 256 + b % 256) m := by
  intro k
  induction k with
  | nil => intro m; exact le_refl _
  | cons b k ih =>
    intro m
    simp only [List.foldl_cons]
    exact le_trans (by omega) (ih (m * 256 + b % 256))

/-- The outer loop of `ScalarMult`: every pass is safe and the invariant goes from `m` to the
value of `m` followed by the bytes of `k`. -/
theorem scalarLoop_inv (q : ℕ) [Fact q.Prime] (c : Curve) (hc : c.P = q)
    (h2 : (2 : ZMod q) ≠ 0) (Bx By : Int)
    (hB : (shortW q c.B).Nonsingular (Bx : ZMod q) (By : ZMod q)) :
    ∀ (k : List Nat) (m : Nat) (s : Acc),
      AccInv q c Bx By (Point.some hB) m s →
      (∀ j : Nat, 0 < j → j ≤ k.foldl (fun acc b => acc * 256 + b % 256) m →
        j • Point.some hB ≠ 0) →
      (∀ sb ∈ scalarTrace c Bx By s k, sb.1.z % c.P ≠ 0 ∧ PassSafe c Bx By sb.1 sb.2) ∧
      AccInv q c Bx By (Point.some hB) (k.foldl (fun acc b => acc * 256 + b % 256) m)
        (scalarLoop c Bx By s k) := by
  intro k
  induction k with
  | nil =>
    intro m s hinv _
    exact ⟨fun sb h => by simp [scalarTrace] at h, hinv⟩
  | cons b k ih =>
    intro m s hinv hsafe
    simp only [List.foldl_cons] at hsafe ⊢
    have hb : b % 256 < 256 := Nat.mod_lt _ (by norm_num)
    have e : m * 2 ^ 8 + b % 256 / 2 ^ (8 - 8) = m * 256 + b % 256 := by norm_num
    obtain ⟨ht1, hinv1⟩ := scalarByte_inv q c hc h2 Bx By hB 8 m s (b % 256) (le_refl _) hb hinv
      (fun j hj hjle => hsafe j hj (by rw [e] at hjle; exact le_trans hjle (foldl_bytes_ge k _)))
    rw [e] at hinv1
    obtain ⟨ht2, hinv2⟩ := ih (m * 256 + b % 256) _ hinv1 hsafe
    refine ⟨?_, hinv2⟩
    intro sb hsb
    simp only [scalarTrace, List.mem_append] at hsb
    rcases hsb with hsb | hsb
    · exact ht1 sb hsb
    · exact ht2 sb hsb

/-- A positive multiple below the order is not the neutral element. -/
theorem nsmul_ne_zero_of_lt_order {A : Type} [AddMonoid A] (g : A) (j : Nat) (hj : 0 < j)
    (hlt : j < addOrderOf g) : j • g ≠ 0 := by
  intro h
  have := Nat.le_of_dvd hj (addOrderOf_dvd_of_nsmul_eq_zero h)
  omega

/-- C17. For a curve `y² = x³ + B` over a prime field with `P > 3` and `B ≢ 0 (mod P)`, a point
`(Bx, By)` that satisfies `IsOnCurve` and has odd order `N` in the curve group, and a byte
sequence `k` with big-endian value `0 < k < N`: at the start of every pass of `ScalarMult` the
`Z` of the accumulator is non-zero modulo `P`; in every pass after the first set bit the `Z` of
the doubled accumulator is non-zero modulo `P`, and at every call of `addJacobian` its `H` and
the `Z` it yields are non-zero modulo `P`; the final `Z` is non-zero modulo `P`; and
`ScalarMult(Bx, By, k)` returns `(X, Y)` in `[0, P)²`, the affine coordinates of `k • (Bx, By)`
in the curve group. -/
theorem scalarMult_correct (q : ℕ) [Fact q.Prime] (c : Curve) (hc : c.P = q) (h3 : 3 < q)
    (hB0 : c.B % c.P ≠ 0) (Bx By : Int) (hon : IsOnCurve c Bx By = true) (N : Nat)
    (_hodd : N % 2 = 1)
    (hord : ∀ h : (shortW q c.B).Nonsingular (Bx : ZMod q) (By : ZMod q),
      addOrderOf (Point.some h) = N)
    (k : List Nat) (hk0 : 0 < SetBytes k) (hkN : SetBytes k < N) :
    (∀ sb ∈ scalarTrace c Bx By ⟨Bx, By, 1, false⟩ k,
      sb.1.z % c.P ≠ 0 ∧ PassSafe c Bx By sb.1 sb.2) ∧
    (scalarLoop c Bx By ⟨Bx, By, 1, false⟩ k).z % c.P ≠ 0 ∧
    ∃ X Y : Int, ScalarMult c Bx By k = some (Wtls.Point.affine X Y) ∧
      0 ≤ X ∧ X < c.P ∧ 0 ≤ Y ∧ Y < c.P ∧
      ∃ (hG : (shortW q c.B).Nonsingular (Bx : ZMod q) (By : ZMod q))
        (hR : (shortW q c.B).Nonsingular (X : ZMod q) (Y : ZMod q)),
        (SetBytes k).toNat • Point.some hG = Point.some hR := by
  have hq2 : q ≠ 2 := by omega
  have hq3 : q ≠ 3 := by omega
  have h2 := two_ne_zero_zmod q hq2
  have hBc : ((c.B : Int) : ZMod q) ≠ 0 := by
    intro h
    apply hB0
    rw [hc]
    exact (cast_eq_zero_iff q c.B).mpr h
  have hG : (shortW q c.B).Nonsingular (Bx : ZMod q) (By : ZMod q) :=
    nonsingular_of_equation q hq2 hq3 c.B hBc _ _ ((isOnCurve_iff_equation q c hc Bx By).mp hon)
  have hV : SetBytes k = ((k.foldl (fun acc b => acc * 256 + b % 256) 0 : Nat) : Int) := rfl
  rw [hV] at hk0 hkN
  have hk0' : 0 < k.foldl (fun acc b => acc * 256 + b % 256) 0 := by exact_mod_cast hk0
  have hkN' : k.foldl (fun acc b => acc * 256 + b % 256) 0 < N := by exact_mod_cast hkN
  obtain ⟨ht, hinv⟩ := scalarLoop_inv q c hc h2 Bx By hG k 0 ⟨Bx, By, 1, false⟩
    (Or.inl ⟨rfl, rfl⟩)
    (fun j hj hjle => nsmul_ne_zero_of_lt_order _ j hj (by rw [hord hG]; omega))
  refine ⟨ht, accInv_z q c hc Bx By _ _ _ hinv, ?_⟩
  rcases hinv with ⟨h0, _⟩ | ⟨_, hs, hrep⟩
  · omega
  · obtain ⟨X, Y, hres, hX0, hXq, hY0, hYq, hR, hpt⟩ := rep_affine q c hc _ _ _ _ hrep
    refine ⟨X, Y, ?_, hX0, by rw [hc]; exact hXq, hY0, by rw [hc]; exact hYq, hG, hR, ?_⟩
    · unfold ScalarMult
      simp only [hs, hres]
      rfl
    · rw [hV, Int.toNat_natCast]
      exact hpt


/-- The double of a point of `y² = x³ + B` with `2y ≠ 0`, from the tangent slope `L`. -/
theorem double_point (q : ℕ) [Fact q.Prime] (B : Int) (x y L x3 y3 : ZMod q)
    (h : (shortW q B).Nonsingular x y) (h2y : 2 * y ≠ 0) (hL : L * (2 * y) = 3 * x ^ 2)
    (hx3 : x3 = L ^ 2 - x - x) (hy3 : y3 = L * (x - x3) - y) :
    ∃ h3 : (shortW q B).Nonsingular x3 y3, Point.some h + Point.some h = Point.some h3 := by
  have hy : y ≠ (shortW q B).negY x y := by
    rw [shortW_negY]
    intro e
    apply h2y
    linear_combination e
  have hs : (shortW q B).slope x x y y = L := by
    rw [shortW_slope_tangent q B x y hy, div_eq_iff h2y, hL]
  rw [Point.add_self_of_Y_ne hy]
  apply some_congr
  · rw [shortW_addX, hs, hx3]
  · rw [shortW_addY, hs, hy3, hx3]

/-- The sum of two points of `y² = x³ + B` with different abscissas, from the chord slope `L`. -/
theorem chord_point (q : ℕ) [Fact q.Prime] (B : Int) (x1 y1 x2 y2 L x3 y3 : ZMod q)
    (h1 : (shortW q B).Nonsingular x1 y1) (h2 : (shortW q B).Nonsingular x2 y2)
    (hx : x1 ≠ x2) (hL : L * (x1 - x2) = y1 - y2)
    (hx3 : x3 = L ^ 2 - x1 - x2) (hy3 : y3 = L * (x1 - x3) - y1) :
    ∃ h3 : (shortW q B).Nonsingular x3 y3, Point.some h1 + Point.some h2 = Point.some h3 := by
  have hs : (shortW q B).slope x1 x2 y1 y2 = L := by
    rw [shortW_slope_chord q B _ _ _ _ hx, div_eq_iff (sub_ne_zero.mpr hx), hL]
  rw [Point.add_of_X_ne hx]
  apply some_congr
  · rw [shortW_addX, hs, hx3]
  · rw [shortW_addY, hs, hy3, hx3]

/-- Arithmetic in `ZMod 7` for the multiples of `(3, 2)` on `y² = x³ + 5`. -/
theorem zmod_seven_arith :
    ((2 : ZMod 7) * 2 ≠ 0 ∧ (5 : ZMod 7) * (2 * 2) = 3 * 3 ^ 2 ∧
      (5 : ZMod 7) = 5 ^ 2 - 3 - 3 ∧ (2 : ZMod 7) = 5 * (3 - 5) - 2) ∧
    ((3 : ZMod 7) * (2 * 2) = 3 * 5 ^ 2 ∧
      (6 : ZMod 7) = 3 ^ 2 - 5 - 5 ∧ (2 : ZMod 7) = 3 * (5 - 6) - 2) ∧
    ((3 : ZMod 7) ≠ 5 ∧ (0 : ZMod 7) * (3 - 5) = 2 - 2 ∧
      (6 : ZMod 7) = 0 ^ 2 - 3 - 5 ∧ (5 : ZMod 7) = 0 * (3 - 6) - 2) ∧
    (2 : ZMod 7) = -5 := by
  decide

/-- On `y² = x³ + 5` over `F_7` the point `(3, 2)` has order `7`: its multiples are `(5, 2)`,
`(6, 5)`, `(6, 2)`, and `4 • G = -(3 • G)`. -/
theorem order_seven [Fact (Nat.Prime 7)]
    (h : (shortW 7 5).Nonsingular ((3 : Int) : ZMod 7) ((2 : Int) : ZMod 7)) :
    addOrderOf (Point.some h) = 7 := by
  have c3 : ((3 : Int) : ZMod 7) = 3 := Int.cast_ofNat 3
  have c2 : ((2 : Int) : ZMod 7) = 2 := Int.cast_ofNat 2
  revert h
  rw [c3, c2]
  intro h
  obtain ⟨⟨a1, a2, a3, a4⟩, ⟨b2, b3, b4⟩, ⟨d1, d2, d3, d4⟩, e1⟩ := zmod_seven_arith
  obtain ⟨h2, e2⟩ := double_point 7 5 3 2 5 5 2 h a1 a2 a3 a4
  obtain ⟨h4, e4⟩ := double_point 7 5 5 2 3 6 2 h2 a1 b2 b3 b4
  obtain ⟨h3, e3⟩ := chord_point 7 5 3 2 5 2 0 6 5 h h2 d1 d2 d3 d4
  have e7 : 7 • Point.some h
      = ((Point.some h + Point.some h) + (Point.some h + Point.some h))
        + (Point.some h + (Point.some h + Point.some h)) := by abel
  have h7 : 7 • Point.some h = 0 := by
    rw [e7, e2, e4, e3]
    exact Point.add_of_Y_eq rfl (by rw [shortW_negY]; exact e1)
  exact addOrderOf_eq_prime h7 (Point.some_ne_zero h)

/-- C17, on `y² = x³ + 5` over `F_7` with the point `(3, 2)` of order `7` and `k = [5]` (one
doubling, then a doubling followed by an addition): every pass is safe and the result is
`(5, 5)`. -/
theorem scalarMult_correct_witness :
    (∀ sb ∈ scalarTrace ⟨7, 7, 5, 3, 2, 3⟩ 3 2 ⟨3, 2, 1, false⟩ [5],
      sb.1.z % 7 ≠ 0 ∧ PassSafe ⟨7, 7, 5, 3, 2, 3⟩ 3 2 sb.1 sb.2) ∧
    (∃ X Y : Int, ScalarMult ⟨7, 7, 5, 3, 2, 3⟩ 3 2 [5] = some (Wtls.Point.affine X Y) ∧
      0 ≤ X ∧ X < 7 ∧ 0 ≤ Y ∧ Y < 7) ∧
    ScalarMult ⟨7, 7, 5, 3, 2, 3⟩ 3 2 [5] = some (Wtls.Point.affine 5 5) := by
  haveI : Fact (Nat.Prime 7) := ⟨by norm_num⟩
  obtain ⟨h1, _, X, Y, h2, h3, h4, h5, h6, _⟩ :=
    scalarMult_correct 7 ⟨7, 7, 5, 3, 2, 3⟩ rfl (by norm_num) (by decide) 3 2 (by decide) 7
      (by decide) (fun h => order_seven h) [5] (by decide) (by decide)
  exact ⟨h1, ⟨X, Y, h2, h3, h4, h5, h6⟩, by decide⟩

end Wtls
